import Mathlib

/-!
# Verification of the Aozora Bunko sentence-extraction pipeline

Shallow embedding of `aozorabunko_cleaning.py` (and the batch-driver glue it
feeds) over `List Char`, together with proofs settling the frozen claims about
the pipeline: the noise stripper, the document parser (title split, preamble
strip, divider strip, colophon separation, year extraction, body cleaning),
the record emitter and the per-run output bucketing.

Python regular expressions are embedded as bespoke executable scanners that
mirror the exact pattern used at each source line, including leftmost-match
order, greedy/lazy group semantics and `re.MULTILINE` anchors.  Character
classes (`\s`, `\w`, `\d`) are modelled as explicit code-point range
predicates covering the character repertoire this corpus uses (ASCII,
Latin-1 whitespace, JIS fullwidth forms, kana and CJK ideographs).
-/

namespace Aozora

/-- Python regex `\s` (Unicode whitespace), modelled as the explicit set of
whitespace code points: ASCII control whitespace, space, NEL, NBSP, ogham
space mark, the general punctuation spaces, line/paragraph separators, narrow
no-break space, medium mathematical space and the ideographic space. -/
def isWs (c : Char) : Bool :=
  c.toNat == 0x09 || c.toNat == 0x0A || c.toNat == 0x0B || c.toNat == 0x0C ||
  c.toNat == 0x0D ||
  (decide (0x1C ≤ c.toNat) && decide (c.toNat ≤ 0x1F)) || c.toNat == 0x20 ||
  c.toNat == 0x85 || c.toNat == 0xA0 || c.toNat == 0x1680 ||
  (decide (0x2000 ≤ c.toNat) && decide (c.toNat ≤ 0x200A)) ||
  c.toNat == 0x2028 || c.toNat == 0x2029 || c.toNat == 0x202F ||
  c.toNat == 0x205F || c.toNat == 0x3000

/-- Python regex `\w` (Unicode word character), modelled on the ranges this
corpus uses: ASCII alphanumerics and underscore, the iteration mark, hiragana,
katakana (with prolonged sound mark), CJK unified ideographs, and the
fullwidth/halfwidth forms of digits, Latin letters and katakana. -/
def isW (c : Char) : Bool :=
  (decide (0x30 ≤ c.toNat) && decide (c.toNat ≤ 0x39)) ||
  (decide (0x41 ≤ c.toNat) && decide (c.toNat ≤ 0x5A)) || c.toNat == 0x5F ||
  (decide (0x61 ≤ c.toNat) && decide (c.toNat ≤ 0x7A)) || c.toNat == 0x3005 ||
  (decide (0x3041 ≤ c.toNat) && decide (c.toNat ≤ 0x3096)) ||
  (decide (0x30A1 ≤ c.toNat) && decide (c.toNat ≤ 0x30FA)) ||
  c.toNat == 0x30FC ||
  (decide (0x4E00 ≤ c.toNat) && decide (c.toNat ≤ 0x9FFF)) ||
  (decide (0xFF10 ≤ c.toNat) && decide (c.toNat ≤ 0xFF19)) ||
  (decide (0xFF21 ≤ c.toNat) && decide (c.toNat ≤ 0xFF3A)) ||
  (decide (0xFF41 ≤ c.toNat) && decide (c.toNat ≤ 0xFF5A)) ||
  (decide (0xFF66 ≤ c.toNat) && decide (c.toNat ≤ 0xFF9F))

theorem isW_eq_false_of_isWs {c : Char} (h : isWs c = true) : isW c = false := by
  rw [Bool.eq_false_iff]
  intro hw
  simp only [isWs, Bool.or_eq_true, Bool.and_eq_true, beq_iff_eq,
    decide_eq_true_eq] at h
  simp only [isW, Bool.or_eq_true, Bool.and_eq_true, beq_iff_eq,
    decide_eq_true_eq] at hw
  omega

/-- `re.sub(r'[\t]+', ' ', text)` (noise stripper step 1): each maximal run of
horizontal tabs becomes a single space.  The boolean state records whether the
previous character was part of a tab run. -/
def collapseTabsGo : Bool → List Char → List Char
  | _, [] => []
  | inRun, c :: cs =>
    if c = '\t' then
      (if inRun then [] else [' ']) ++ collapseTabsGo true cs
    else c :: collapseTabsGo false cs

def collapseTabs (s : List Char) : List Char := collapseTabsGo false s

/-- Character class `[　\xa0]` of noise stripper step 2. -/
def isZenSpace (c : Char) : Bool := c.toNat == 0x3000 || c.toNat == 0xA0

/-- `re.sub(r'[　\xa0]+', ' ', text)` (noise stripper step 2): each
maximal run of ideographic/no-break spaces becomes a single space. -/
def collapseZenGo : Bool → List Char → List Char
  | _, [] => []
  | inRun, c :: cs =>
    if isZenSpace c then
      (if inRun then [] else [' ']) ++ collapseZenGo true cs
    else c :: collapseZenGo false cs

def collapseZen (s : List Char) : List Char := collapseZenGo false s

/-- Suffix after the last newline of a list, or `none` when it has no
newline.  This realises the backtracking of the greedy `\s*` before `$\n?` in
noise stripper step 3: the match ends just after the last newline inside a
whitespace run. -/
def lastNlSplit : List Char → Option (List Char)
  | [] => none
  | c :: cs =>
    match lastNlSplit cs with
    | some r => some r
    | none => if c = '\n' then some cs else none

/-- One attempt of `re.sub(r'^\s*\w+\s*$\n?', '', text, flags=re.MULTILINE)`
at a line start (noise stripper step 3).  Since `\s` and `\w` are disjoint the
greedy `\s*` and `\w+` are forced to the maximal runs; the trailing `\s*$\n?`
ends the match either at the end of the text or just after the last newline of
the trailing whitespace run.  Returns the suffix left after the removed match,
or `none` when the pattern does not match at this position. -/
def tryMatch3 (s : List Char) : Option (List Char) :=
  let t1 := s.dropWhile isWs
  let w := t1.takeWhile isW
  if w.isEmpty then none
  else
    let t2 := t1.dropWhile isW
    let ws2 := t2.takeWhile isWs
    let t3 := t2.dropWhile isWs
    if t3.isEmpty then some []
    else
      match lastNlSplit ws2 with
      | some r => some (r ++ t3)
      | none => none

/-- The first line of a text (up to, excluding, the first newline). -/
def takeLine (s : List Char) : List Char := s.takeWhile (fun c => !(c == '\n'))

/-- The text from its first newline on (empty when there is none). -/
def lineRest (s : List Char) : List Char := s.dropWhile (fun c => !(c == '\n'))

/-- The scan of `re.sub(r'^\s*\w+\s*$\n?', '', text, flags=re.MULTILINE)`
(noise stripper step 3): the `^` anchor confines match attempts to line
starts; after a removal the scan resumes at the match end (again a line
start), after a failed attempt it resumes past the line's newline.  `fuel`
bounds the recursion; the wrapper passes the input length, which the scan
never exhausts since every step consumes at least one character. -/
def wordLinesGo (fuel : Nat) (s : List Char) : List Char :=
  match fuel with
  | 0 => s
  | fuel + 1 =>
    match s with
    | [] => []
    | _ =>
      match tryMatch3 s with
      | some rest => wordLinesGo fuel rest
      | none =>
        takeLine s ++
          match lineRest s with
          | [] => []
          | _ :: r => '\n' :: wordLinesGo fuel r

def removeWordLines (s : List Char) : List Char := wordLinesGo s.length s

/-- The scan of `re.sub(r'^[ ]*$\n', '', text, flags=re.MULTILINE)` (noise
stripper step 4) — also used for the identical `re.sub(r'^ *\n', '', ...)` of
the body cleaning: a line consisting only of spaces is removed together with
its newline. -/
def blankLinesGo (fuel : Nat) (s : List Char) : List Char :=
  match fuel with
  | 0 => s
  | fuel + 1 =>
    match s with
    | [] => []
    | _ =>
      if (s.dropWhile (fun c => c == ' ')).head? = some '\n' then
        blankLinesGo fuel (s.dropWhile (fun c => c == ' ')).tail
      else
        takeLine s ++
          match lineRest s with
          | [] => []
          | _ :: r => '\n' :: blankLinesGo fuel r

def removeBlankLines (s : List Char) : List Char := blankLinesGo s.length s

/-- `remove_parentheses_and_special_chars` of the source (the noise
stripper): collapse tab runs, collapse ideographic/no-break space runs, remove
stray single-word lines, remove blank lines — in that order. -/
def remove_parentheses_and_special_chars (s : List Char) : List Char :=
  removeBlankLines (removeWordLines (collapseZen (collapseTabs s)))

example : collapseTabs "a\t\t\tb\tc".toList = "a b c".toList := by decide

example : remove_parentheses_and_special_chars "line one\nx\n\nline two\n".toList
    = "line one\nline two\n".toList := by decide

example : tryMatch3 "abc\ndef".toList = some "def".toList := by decide

example : tryMatch3 " a b\n".toList = none := by decide

/-! ## Document parser (`process_content`) -/

/-- Error taxonomy of the Python exceptions `process_content` can raise, one
constructor per raise site / runtime error. -/
inductive PyErr where
  /-- `title, text = text.split("\n", 1)` with no newline: unpacking a
  1-element list raises `ValueError`. -/
  | valueError
  /-- `raise Exception(f"Invalid format: ...")`: no colophon separator. -/
  | formatError
  /-- `raise Exception(f"Invalid year: ...")`: extracted year `≥ 2030`. -/
  | invalidYear
  /-- `month = match.group(2)` after the year-only fallback regex matched:
  that pattern has a single group, so `IndexError: no such group`. -/
  | indexError
  /-- `int(year)` with `year` never assigned (neither date regex matched):
  `UnboundLocalError`. -/
  | nameError
deriving DecidableEq

deriving instance DecidableEq for Except

/-- `text.replace('\r\n', '\n')`: left-to-right non-overlapping replacement
of CRLF pairs. -/
def replaceCrLf : List Char → List Char
  | '\r' :: '\n' :: cs => '\n' :: replaceCrLf cs
  | c :: cs => c :: replaceCrLf cs
  | [] => []

/-- `text.replace('\r', '\n')`. -/
def replaceCr (s : List Char) : List Char :=
  s.map fun c => if c = '\r' then '\n' else c

/-- `title, text = text.split("\n", 1)`: split at the first newline; `none`
models the `ValueError` when the text has no newline. -/
def splitFirstNl : List Char → Option (List Char × List Char)
  | [] => none
  | c :: cs =>
    if c = '\n' then some ([], cs)
    else (splitFirstNl cs).map fun p => (c :: p.1, p.2)

/-- The scan of `re.sub(r"^(.|\n)*?\n\s*\n", "", text)`: the lazy leading
group tries every start for the `\n\s*\n` tail, shortest first; the greedy
`\s*` pushes the final newline of the match to the last newline of the
whitespace run.  Returns the text left after the removed prefix, or `none`
when no blank-line boundary exists. -/
def preambleScan : List Char → Option (List Char)
  | [] => none
  | '\n' :: cs =>
    (match lastNlSplit (cs.takeWhile isWs) with
     | some r => some (r ++ cs.dropWhile isWs)
     | none => preambleScan cs)
  | _ :: cs => preambleScan cs

/-- Body preamble removal (parser step 3). -/
def stripPreamble (s : List Char) : List Char := (preambleScan s).getD s

/-- Length of the leading hyphen run. -/
def hyphenRun (s : List Char) : Nat := (s.takeWhile fun c => c == '-').length

/-- Index of the first position whose suffix starts with at least seven
hyphens (the minimum the divider pattern accepts). -/
def find7 : List Char → Option Nat
  | [] => none
  | c :: cs =>
    if 7 ≤ hyphenRun (c :: cs) then some 0 else (find7 cs).map (· + 1)

/-- Whether some position starts a run of at least seven hyphens. -/
def hasRun7 (s : List Char) : Bool := (find7 s).isSome

/-- Backtracking of `--------*(.|\n)*?--------*` at a match start: the greedy
first run tries its maximal extent `r = h` downwards; for each `r` the lazy
middle stops at the first following seven-hyphen run, whose maximal extent the
greedy trailing run consumes.  Returns the match length.  `k` counts the
remaining shrink steps (`h - 7` at the start). -/
def tryRGo (s : List Char) : Nat → Nat → Option Nat
  | k, r =>
    match find7 (s.drop r) with
    | some m => some (r + m + hyphenRun (s.drop (r + m)))
    | none =>
      match k with
      | 0 => none
      | k + 1 => tryRGo s k (r - 1)

/-- Match attempt of the divider pattern at the start of `s` (needs at least
seven leading hyphens); returns the match length. -/
def matchDivider (s : List Char) : Option Nat :=
  if 7 ≤ hyphenRun s then tryRGo s (hyphenRun s - 7) (hyphenRun s) else none

/-- The scan of `re.sub(r'--------*(.|\n)*?--------*', "", text)` (parser
step 4): every region bounded by two runs of seven-or-more hyphens is removed,
leftmost-first, the scan resuming after each removed match. -/
def dividerGo (fuel : Nat) (s : List Char) : List Char :=
  match fuel with
  | 0 => s
  | fuel + 1 =>
    match s with
    | [] => []
    | c :: cs =>
      match matchDivider (c :: cs) with
      | some e => dividerGo fuel (cs.drop (e - 1))
      | none => c :: dividerGo fuel cs

def removeDivider (s : List Char) : List Char := dividerGo s.length s

/-- Suffix of an (intra-line) text after the last occurrence of the token
`底本：`, or `none` when the token does not occur.  Realises the greedy `.*`
of `'\n.*底本：'` inside the matched line. -/
def afterLastTok : List Char → Option (List Char)
  | [] => none
  | c :: cs =>
    match afterLastTok cs with
    | some a => some a
    | none =>
      if (c :: cs).take 3 = ['底', '本', '：'] then some ((c :: cs).drop 3)
      else none

/-- The scan of `re.split('\n.*底本：', text, 1)`: the single split happens at
the leftmost newline whose following line contains `底本：`; the part before
the newline and the part after the last in-line token are returned.  `none`
models the length-1 result when the pattern never matches. -/
def teihonScan : List Char → Option (List Char × List Char)
  | [] => none
  | c :: cs =>
    if c = '\n' then
      match afterLastTok (takeLine cs) with
      | some a => some ([], a ++ lineRest cs)
      | none => (teihonScan cs).map fun p => (c :: p.1, p.2)
    else (teihonScan cs).map fun p => (c :: p.1, p.2)

/-- `text.rsplit(sep, 1)` for a non-empty separator: split at the rightmost
occurrence; `none` models the length-1 result when `sep` does not occur. -/
def rsplitLast (sep : List Char) : List Char → Option (List Char × List Char)
  | [] => none
  | c :: cs =>
    match rsplitLast sep cs with
    | some p => some (c :: p.1, p.2)
    | none =>
      if (c :: cs).take sep.length = sep then some ([], (c :: cs).drop sep.length)
      else none

/-- Colophon separation (parser step 5): `底本：` line split, then
`rsplit('\n\n\n', 1)`, then `rsplit('\n\n', 1)`; `none` means all three
failed (the `Invalid format` raise). -/
def colophonSplit (s : List Char) : Option (List Char × List Char) :=
  match teihonScan s with
  | some p => some p
  | none =>
    match rsplitLast ['\n', '\n', '\n'] s with
    | some p => some p
    | none => rsplitLast ['\n', '\n'] s

/-- Python regex `\d` restricted to this corpus: ASCII and fullwidth
decimal digits. -/
def isDigitPy (c : Char) : Bool :=
  (decide (0x30 ≤ c.toNat) && decide (c.toNat ≤ 0x39)) ||
  (decide (0xFF10 ≤ c.toNat) && decide (c.toNat ≤ 0xFF19))

/-- Numeric value of one (ASCII or fullwidth) decimal digit. -/
def digitVal (c : Char) : Nat :=
  if c.toNat ≤ 0x39 then c.toNat - 0x30 else c.toNat - 0xFF10

/-- `int(...)` on a digit string. -/
def decimalVal (ds : List Char) : Nat :=
  ds.foldl (fun acc c => 10 * acc + digitVal c) 0

/-- `(\d{4})` at the current position: four digit characters. -/
def take4Digits (s : List Char) : Option (List Char × List Char) :=
  match s with
  | d1 :: d2 :: d3 :: d4 :: rest =>
    if isDigitPy d1 && isDigitPy d2 && isDigitPy d3 && isDigitPy d4 then
      some ([d1, d2, d3, d4], rest)
    else none
  | _ => none

/-- `\d{1,2}u` for a unit character `u`, greedy: two digits before `u` are
preferred over one.  Returns the digits and the rest after `u`. -/
def matchNumThen (u : Char) (s : List Char) : Option (List Char × List Char) :=
  match s with
  | d1 :: d2 :: c :: rest =>
    if isDigitPy d1 && isDigitPy d2 && c = u then some ([d1, d2], rest)
    else if isDigitPy d1 && d2 = u then some ([d1], c :: rest)
    else none
  | d1 :: c :: rest =>
    if isDigitPy d1 && c = u then some ([d1], rest) else none
  | _ => none

/-- `\d{1,2}月\d{1,2}日` after the `年`. -/
def matchMD (s : List Char) : Option (List Char × List Char) :=
  match matchNumThen '月' s with
  | none => none
  | some (m, r1) =>
    match matchNumThen '日' r1 with
    | none => none
    | some (d, _) => some (m, d)

/-- The lazy `.*?年` tail of the full date pattern: at each position, first
try `年` followed by month/day; on failure the lazy gap consumes the
character (newline excluded, `.` does not match it). -/
def dateGap (y : List Char) : List Char → Option (List Char × List Char × List Char)
  | [] => none
  | c :: cs =>
    if c = '年' then
      match matchMD cs with
      | some (m, d) => some (y, m, d)
      | none => dateGap y cs
    else if c = '\n' then none
    else dateGap y cs

/-- `re.search(r'(\d{4}).*?年(\d{1,2})月(\d{1,2})日', s)` (parser step 6a):
leftmost match; returns the year, month and day digit groups. -/
def searchDate : List Char → Option (List Char × List Char × List Char)
  | [] => none
  | c :: cs =>
    match take4Digits (c :: cs) with
    | some (y, rest) =>
      (match dateGap y rest with
       | some r => some r
       | none => searchDate cs)
    | none => searchDate cs

/-- The lazy `.*?年` tail of the year-only pattern. -/
def yearGap : List Char → Bool
  | [] => false
  | c :: cs => if c = '年' then true else if c = '\n' then false else yearGap cs

/-- `re.search(r'(\d{4}).*?年', s)` (parser step 6b, the fallback). -/
def searchYear : List Char → Option (List Char)
  | [] => none
  | c :: cs =>
    match take4Digits (c :: cs) with
    | some (y, rest) => if yearGap rest then some y else searchYear cs
    | none => searchYear cs

example : searchDate "発行1923年12月31日".toList = some ("1923".toList, "12".toList, "31".toList) := by decide
example : searchDate "1999年 2000年3月4日".toList = some ("1999".toList, "3".toList, "4".toList) := by decide
example : searchDate "底本：1923年の本".toList = none := by decide
example : searchYear "底本：1923年の本".toList = some "1923".toList := by decide
example : removeDivider "aaa-------b-------c-------d".toList = "aaac-------d".toList := by decide
example : removeDivider "--------------".toList = [] := by decide
example : removeDivider "----abc----".toList = "----abc----".toList := by decide
example : teihonScan "X\nA底本：P\nB底本：Q\nZ".toList = some ("X".toList, "P\nB底本：Q\nZ".toList) := by decide
example : stripPreamble "abc\n \n\nrest".toList = "rest".toList := by decide
example : stripPreamble "a\nb\nc".toList = "a\nb\nc".toList := by decide

/-! ## Body cleaning (parser step 8) -/

/-- Segment before the first occurrence of `stop` on the current line, with
the rest after it; `none` when `stop` does not occur before a newline.
Realises lazy `.*?stop` (the `.` never matching a newline). -/
def upToChar (stop : Char) : List Char → Option (List Char × List Char)
  | [] => none
  | c :: cs =>
    if c = stop then some ([], cs)
    else if c = '\n' then none
    else (upToChar stop cs).map fun p => (c :: p.1, p.2)

/-- The `(.+?)《.*?》` tail of the ruby pattern after one base character has
been consumed: the lazy base extends to each successive `《`; the first one
followed by an (intra-line) `》` ends the match.  Returns the rest of the
base and the suffix after the `》`. -/
def rubyAfterBase : List Char → Option (List Char × List Char)
  | [] => none
  | c :: cs =>
    if c = '\n' then none
    else if c = '《' then
      match upToChar '》' cs with
      | some (_, r2) => some ([], r2)
      | none => (rubyAfterBase cs).map fun p => (c :: p.1, p.2)
    else (rubyAfterBase cs).map fun p => (c :: p.1, p.2)

/-- Match attempt of `｜(.+?)《.*?》` just after the `｜`: returns the base
text (the kept `\1`) and the suffix after the reading. -/
def rubyMatch : List Char → Option (List Char × List Char)
  | [] => none
  | b :: ts =>
    if b = '\n' then none
    else (rubyAfterBase ts).map fun p => (b :: p.1, p.2)

/-- The scan of `re.sub(r'｜(.+?)《.*?》', r'\1', text)` (cleaning step a):
each marked ruby annotation is replaced by its base text; the replacement is
not rescanned. -/
def rubyGo (fuel : Nat) (s : List Char) : List Char :=
  match fuel with
  | 0 => s
  | fuel + 1 =>
    match s with
    | [] => []
    | c :: cs =>
      if c = '｜' then
        match rubyMatch cs with
        | some (base, rest) => base ++ rubyGo fuel rest
        | none => c :: rubyGo fuel cs
      else c :: rubyGo fuel cs

def rubySub (s : List Char) : List Char := rubyGo s.length s

/-- The scan of `re.sub(r'《.*?》', '', text)` (cleaning step b): each
remaining reading annotation, up to the nearest intra-line `》`, is removed. -/
def kakkoGo (fuel : Nat) (s : List Char) : List Char :=
  match fuel with
  | 0 => s
  | fuel + 1 =>
    match s with
    | [] => []
    | c :: cs =>
      if c = '《' then
        match upToChar '》' cs with
        | some (_, rest) => kakkoGo fuel rest
        | none => c :: kakkoGo fuel cs
      else c :: kakkoGo fuel cs

def kakkoSub (s : List Char) : List Char := kakkoGo s.length s

/-- Suffix after the last occurrence of `stop` on the current line; `none`
when `stop` does not occur before a newline.  Realises greedy `.*stop`. -/
def afterLastChar (stop : Char) : List Char → Option (List Char)
  | [] => none
  | c :: cs =>
    if c = '\n' then none
    else
      match afterLastChar stop cs with
      | some r => some r
      | none => if c = stop then some cs else none

/-- The scan of `re.sub(r'［＃.*］', '', text)` (cleaning step c): each
editorial bracket annotation, extending greedily to the last intra-line `］`,
is removed. -/
def chuukiGo (fuel : Nat) (s : List Char) : List Char :=
  match fuel with
  | 0 => s
  | fuel + 1 =>
    match s with
    | [] => []
    | c :: cs =>
      if c = '［' then
        match cs with
        | c2 :: cs2 =>
          if c2 = '＃' then
            match afterLastChar '］' cs2 with
            | some rest => chuukiGo fuel rest
            | none => c :: chuukiGo fuel cs
          else c :: chuukiGo fuel cs
        | [] => [c]
      else c :: chuukiGo fuel cs

def chuukiSub (s : List Char) : List Char := chuukiGo s.length s

/-- `re.sub(r'#', '＃', text)` (cleaning step d). -/
def hashSub (s : List Char) : List Char :=
  s.map fun c => if c = '#' then '＃' else c

/-- `mojimoji.zen_to_han(text, kana=False, ascii=True, digit=True)` on one
character: fullwidth ASCII forms map to their halfwidth counterparts, the
ideographic space maps to a space, katakana is untouched. -/
def zen_to_han_char (c : Char) : Char :=
  if 0xFF01 ≤ c.toNat ∧ c.toNat ≤ 0xFF5E then Char.ofNat (c.toNat - 0xFEE0)
  else if c.toNat = 0x3000 then ' '
  else c

/-- `convert_fullwidth_to_halfwidth` of the source (the character
normalizer). -/
def convert_fullwidth_to_halfwidth (s : List Char) : List Char :=
  s.map zen_to_han_char

/-- Body cleaning steps a-g of the parser, in source order (lines 96-102):
ruby base extraction, reading removal, bracket-annotation removal, `#`
replacement, space-only line removal, fullwidth conversion, noise
stripping. -/
def cleanBody (s : List Char) : List Char :=
  remove_parentheses_and_special_chars (convert_fullwidth_to_halfwidth
    (removeBlankLines (hashSub (chuukiSub (kakkoSub (rubySub s))))))

/-- `process_content` of the source: newline normalisation, title split,
preamble strip, divider strip, colophon separation, year extraction, year
bound check, body cleaning.  Returns `(title, year digits, cleaned body)` or
the error of the Python exception the corresponding path raises. -/
def process_content (s : List Char) :
    Except PyErr (List Char × List Char × List Char) :=
  match splitFirstNl (replaceCr (replaceCrLf s)) with
  | none => .error .valueError
  | some (title, rest) =>
    match colophonSplit (removeDivider (stripPreamble rest)) with
    | none => .error .formatError
    | some (body, colo) =>
      match searchDate colo with
      | some (y, _, _) =>
        if 2030 ≤ decimalVal y then .error .invalidYear
        else .ok (title, y, cleanBody body)
      | none =>
        match searchYear colo with
        | some _ => .error .indexError
        | none => .error .nameError

example : rubySub "｜漢字《かんじ》rest".toList = "漢字rest".toList := by decide
example : rubySub "｜《x《y》z".toList = "《xz".toList := by decide
example : kakkoSub "a《x》b《y》c".toList = "abc".toList := by decide
example : chuukiSub "a［＃x］y］b".toList = "ab".toList := by decide
example : chuukiSub "a［＃x\n］b".toList = "a［＃x\n］b".toList := by decide
example : convert_fullwidth_to_halfwidth "ＡＢＣ１２３カナ".toList = "ABC123カナ".toList := by decide

example : process_content "題名\nヘッダ\n\n本文 です\n\n\n底本：出版2029年1月1日".toList
    = .ok ("題名".toList, "2029".toList, "本文 です\n".toList) := by decide

example : process_content "題名\nヘッダ\n\n本文 です\n\n\n底本：出版2030年1月1日".toList
    = .error .invalidYear := by decide

example : process_content "題名\nヘッダ\n\n本文 です\n\n\n底本：1923年の本".toList
    = .error .indexError := by decide

example : process_content "題名\nヘッダ\n\n本文 です\n\n\n底本：なし".toList
    = .error .nameError := by decide

example : process_content "題名\nヘッダ\n\n本文 です".toList
    = .error .formatError := by decide

example : process_content "改行なし".toList = .error .valueError := by decide

/-! ## Record emitter and output bucketing (`write_output`) -/

/-- Prepend a character to the first line of a split result. -/
def consHead (c : Char) : List (List Char) → List (List Char)
  | l :: ls => (c :: l) :: ls
  | [] => [[c]]

/-- `text.split('\n')`: always returns at least one element; an empty text
yields one empty line. -/
def splitNl : List Char → List (List Char)
  | [] => [[]]
  | c :: cs => if c = '\n' then [] :: splitNl cs else consHead c (splitNl cs)

/-- Lines 124-130 of `write_output`: split the cleaned text on newlines, pop
a final empty line, pair every line with the title. -/
def emitRows (title text : List Char) : List (List Char × List Char) :=
  let ls := splitNl text
  let ls := if ls.getLast? = some [] then ls.dropLast else ls
  ls.map fun l => (title, l)

/-- `year = year[:-1] + 'x'` (line 133): the decade bucket key. -/
def yearBucket (year : List Char) : List Char := year.dropLast ++ ['x']

/-- Writing to a bucket's parquet file: `pq.ParquetWriter(path, schema)`
recreates the file, so an existing entry for the same bucket is replaced.
The output store is modelled as an association list from bucket key to file
contents. -/
def storeWrite (store : List (List Char × List (List Char × List Char)))
    (b : List Char) (rows : List (List Char × List Char)) :
    List (List Char × List (List Char × List Char)) :=
  match store with
  | [] => [(b, rows)]
  | (b0, r0) :: rest =>
    if b0 = b then (b0, rows) :: rest else (b0, r0) :: storeWrite rest b rows

/-- Contents of a bucket's file in the store. -/
def storeGet (store : List (List Char × List (List Char × List Char)))
    (b : List Char) : Option (List (List Char × List Char)) :=
  match store with
  | [] => none
  | (b0, r0) :: rest => if b0 = b then some r0 else storeGet rest b

/-- The per-document loop of `write_output` (lines 118-140): each yielded
`(title, year, text)` is split into rows and written to its decade bucket,
recreating that bucket's file. -/
def writeRun (docs : List (List Char × List Char × List Char)) :
    List (List Char × List (List Char × List Char)) :=
  docs.foldl (fun store doc =>
    storeWrite store (yearBucket doc.2.1) (emitRows doc.1 doc.2.2)) []

/-- The per-entry loop of `process_zip_files` (lines 25-34).  In the source
the `yield` sits after the `try/except`, not inside the `try`: when
`process_content` raises, the handler only logs, execution falls through to
the `yield`, and the generator re-yields the bindings `title, year, text`
left over from the last successful parse — or raises `NameError` (modelled
as `none`) when no document has parsed successfully yet.  The state carries
those leftover bindings. -/
def zipFilesGo (prev : Option (List Char × List Char × List Char)) :
    List (List Char) → Option (List (List Char × List Char × List Char))
  | [] => some []
  | d :: ds =>
    match process_content d with
    | .ok r => (zipFilesGo (some r) ds).map (r :: ·)
    | .error _ =>
      match prev with
      | some r => (zipFilesGo (some r) ds).map (r :: ·)
      | none => none

/-- `process_zip_files` restricted to the decoded text contents of one
archive: the list of tuples the generator yields, or `none` when the
generator raises (`NameError` on a first-document parse failure, which
nothing catches). -/
def process_zip_files (docs : List (List Char)) :
    Option (List (List Char × List Char × List Char)) :=
  zipFilesGo none docs

example : emitRows "T".toList "line1\nline2\n".toList
    = [("T".toList, "line1".toList), ("T".toList, "line2".toList)] := by decide
example : emitRows "T".toList "line1\n\nline2".toList
    = [("T".toList, "line1".toList), ("T".toList, [] ), ("T".toList, "line2".toList)] := by decide
example : yearBucket "1987".toList = "198x".toList := by decide

/-! ## Sample documents used by the concrete evaluations -/

/-- Well-formed document whose colophon year is 2029. -/
def doc2029 : List Char :=
  "題名\nヘッダ\n\n本文 です\n\n\n底本：出版2029年1月1日".toList

/-- Well-formed document whose colophon year is 2030. -/
def doc2030 : List Char :=
  "題名\nヘッダ\n\n本文 です\n\n\n底本：出版2030年1月1日".toList

/-- Document whose colophon only matches the year-only fallback pattern. -/
def docYearOnly : List Char :=
  "題名\nヘッダ\n\n本文 です\n\n\n底本：1923年の本".toList

/-- Document whose colophon matches neither year pattern. -/
def docNoYear : List Char :=
  "題名\nヘッダ\n\n本文 です\n\n\n底本：なし".toList

/-! ## Claim C10: a document without a line break never parses -/

theorem splitFirstNl_eq_none {s : List Char} (h : '\n' ∉ s) :
    splitFirstNl s = none := by
  induction s with
  | nil => rfl
  | cons c cs ih =>
    rw [splitFirstNl, if_neg (by simp at h; exact fun hc => h.1 hc.symm),
      ih (by simp at h; exact h.2)]
    rfl

/-- C10: for every raw text containing no line break after CRLF/CR
normalisation, `process_content` raises (`ValueError` from unpacking the
1-element split) and never returns a parsed document: the title/body split
requires at least one line break. -/
theorem parse_fails_without_newline (s : List Char)
    (h : '\n' ∉ replaceCr (replaceCrLf s)) :
    process_content s = Except.error PyErr.valueError := by
  unfold process_content
  rw [splitFirstNl_eq_none h]

theorem parse_fails_without_newline_witness :
    '\n' ∉ replaceCr (replaceCrLf "改行なし".toList) ∧
    process_content "改行なし".toList = Except.error PyErr.valueError :=
  ⟨by decide, parse_fails_without_newline ("改行なし".toList) (by decide)⟩

/-! ## Claim C3: the year-only fallback path -/

/-- C3: on a colophon where the full date pattern fails but the year-only
pattern matches, the parser does **not** extract the year and succeed: the
source reads `match.group(2)` from the one-group fallback match, so
`process_content` raises `IndexError` (no such group) instead of returning a
parsed document. -/
theorem yearOnly_fallback_raises :
    searchDate "1923年の本".toList = none ∧
    searchYear "1923年の本".toList = some "1923".toList ∧
    process_content docYearOnly = Except.error PyErr.indexError := by decide

/-! ## Claim C4: no year pattern matches -/

/-- C4: on a colophon where neither year pattern matches, the parser does
fail, but not with the explicit invalid-year error: the source evaluates
`int(year)` with `year` never assigned, raising `UnboundLocalError`. -/
theorem missing_year_reads_unbound :
    searchDate "なし".toList = none ∧
    searchYear "なし".toList = none ∧
    process_content docNoYear = Except.error PyErr.nameError ∧
    PyErr.nameError ≠ PyErr.invalidYear := by decide

/-! ## Claim C1: the batch driver on a failing document -/

/-- C1: the driver does **not** skip a document whose parse raises.  The
`yield` sits after the `try/except`, so after the logged exception the
generator re-yields the previous document's bindings: a batch of a valid
document followed by an invalid one yields the valid document's tuple twice;
a batch starting with an invalid document raises `NameError` (modelled as
`none`), which nothing catches. -/
theorem failing_document_not_skipped :
    process_content docNoYear = Except.error PyErr.nameError ∧
    process_zip_files [doc2029, docNoYear] =
      some [("題名".toList, "2029".toList, "本文 です\n".toList),
            ("題名".toList, "2029".toList, "本文 です\n".toList)] ∧
    process_zip_files [docNoYear, doc2029] = none := by decide

/-! ## Claim C2: repeated writes to the same bucket -/

/-- C2: rows written to a bucket for an earlier document do **not** survive a
later write to the same bucket: `write_output` recreates the bucket's parquet
file per document, so after two documents of the same decade the store holds
only the second document's rows, and the first document's row is gone. -/
theorem bucket_write_overwrites :
    yearBucket "1923".toList = "192x".toList ∧
    yearBucket "1925".toList = "192x".toList ∧
    writeRun [("甲".toList, "1923".toList, "ひとつ め".toList),
              ("乙".toList, "1925".toList, "ふたつ め".toList)] =
      [("192x".toList, [("乙".toList, "ふたつ め".toList)])] ∧
    ("甲".toList, "ひとつ め".toList) ∈
      emitRows "甲".toList "ひとつ め".toList ∧
    ("甲".toList, "ひとつ め".toList) ∉
      [(("乙".toList : List Char), ("ふたつ め".toList : List Char))] := by decide

/-! ## Claim C6: the year boundary -/

/-- C6: for every document whose colophon yields a year via the date pattern,
the parse fails with the invalid-year error exactly when the year is 2030 or
greater, and succeeds (returning the title, the year digits and the cleaned
body) when it is below 2030. -/
theorem year_bound (s title rest body colo y m d : List Char)
    (h1 : splitFirstNl (replaceCr (replaceCrLf s)) = some (title, rest))
    (h2 : colophonSplit (removeDivider (stripPreamble rest)) = some (body, colo))
    (h3 : searchDate colo = some (y, m, d)) :
    (process_content s = Except.error PyErr.invalidYear ↔ 2030 ≤ decimalVal y) ∧
    (decimalVal y < 2030 →
      process_content s = Except.ok (title, y, cleanBody body)) := by
  have hp : process_content s =
      if 2030 ≤ decimalVal y then Except.error PyErr.invalidYear
      else Except.ok (title, y, cleanBody body) := by
    unfold process_content
    rw [h1]
    simp only [h2, h3]
  constructor
  · rw [hp]
    constructor
    · intro h
      by_contra hy
      rw [if_neg hy] at h
      cases h
    · intro hy
      rw [if_pos hy]
  · intro hy
    rw [hp, if_neg (by omega)]

theorem year_bound_witness :
    process_content doc2030 = Except.error PyErr.invalidYear ∧
    process_content doc2029 =
      Except.ok ("題名".toList, "2029".toList, cleanBody "本文 です\n\n".toList) := by
  constructor
  · exact (year_bound doc2030 ("題名".toList)
      ("ヘッダ\n\n本文 です\n\n\n底本：出版2030年1月1日".toList)
      ("本文 です\n\n".toList) ("出版2030年1月1日".toList)
      ("2030".toList) ("1".toList) ("1".toList)
      (by decide) (by decide) (by decide)).1.mpr (by decide)
  · exact (year_bound doc2029 ("題名".toList)
      ("ヘッダ\n\n本文 です\n\n\n底本：出版2029年1月1日".toList)
      ("本文 です\n\n".toList) ("出版2029年1月1日".toList)
      ("2029".toList) ("1".toList) ("1".toList)
      (by decide) (by decide) (by decide)).2 (by decide)

/-! ## Claim C7: the record emitter -/

/-- Inverse of `splitNl` on newline-free lines. -/
def joinNl : List (List Char) → List Char
  | [] => []
  | [l] => l
  | l :: ls => l ++ '\n' :: joinNl ls

theorem splitNl_no_nl {l : List Char} (h : '\n' ∉ l) : splitNl l = [l] := by
  induction l with
  | nil => rfl
  | cons c cs ih =>
    rw [splitNl, if_neg (by simp at h; exact fun hc => h.1 hc.symm),
      ih (by simp at h; exact h.2)]
    rfl

theorem splitNl_append_nl {l t : List Char} (h : '\n' ∉ l) :
    splitNl (l ++ '\n' :: t) = l :: splitNl t := by
  induction l with
  | nil => simp [splitNl]
  | cons c cs ih =>
    simp only [List.cons_append]
    rw [splitNl, if_neg (by simp at h; exact fun hc => h.1 hc.symm),
      ih (by simp at h; exact h.2)]
    rfl

theorem splitNl_joinNl {lines : List (List Char)} (hne : lines ≠ [])
    (hnl : ∀ l ∈ lines, '\n' ∉ l) : splitNl (joinNl lines) = lines := by
  induction lines with
  | nil => exact absurd rfl hne
  | cons l ls ih =>
    cases ls with
    | nil => exact splitNl_no_nl (hnl l (by simp))
    | cons l2 ls2 =>
      have hj : joinNl (l :: l2 :: ls2) = l ++ '\n' :: joinNl (l2 :: ls2) := rfl
      rw [hj, splitNl_append_nl (hnl l (by simp)),
        ih (fun h => List.noConfusion h) (fun x hx => hnl x (by simp [hx]))]

theorem splitNl_ne_nil (s : List Char) : splitNl s ≠ [] := by
  cases s with
  | nil => simp [splitNl]
  | cons c cs =>
    rw [splitNl]
    split
    · simp
    · unfold consHead
      split <;> simp

theorem splitNl_concat_nl (s : List Char) :
    splitNl (s ++ ['\n']) = splitNl s ++ [[]] := by
  induction s with
  | nil => rfl
  | cons c cs ih =>
    rw [List.cons_append, splitNl, splitNl, ih]
    by_cases hc : c = '\n'
    · rw [if_pos hc, if_pos hc]
      rfl
    · rw [if_neg hc, if_neg hc]
      cases h : splitNl cs with
      | nil => exact absurd h (splitNl_ne_nil cs)
      | cons x xs => rfl

/-- C7: the emitter splits the body on line breaks into order-preserving
rows, each paired with the document's title; exactly one trailing empty line
is dropped when the body ends with a line break, while without a trailing
line break (in particular with internal empty lines) every split line
becomes a row. -/
theorem emitter_rows_spec (t : List Char) (lines : List (List Char))
    (hne : lines ≠ []) (hnl : ∀ l ∈ lines, '\n' ∉ l) :
    emitRows t (joinNl lines ++ ['\n']) = lines.map (fun l => (t, l)) ∧
    (lines.getLast? ≠ some [] →
      emitRows t (joinNl lines) = lines.map (fun l => (t, l))) := by
  constructor
  · simp only [emitRows]
    rw [splitNl_concat_nl, splitNl_joinNl hne hnl,
      if_pos (List.getLast?_concat _), List.dropLast_concat]
  · intro hlast
    simp only [emitRows]
    rw [splitNl_joinNl hne hnl, if_neg hlast]

theorem emitter_rows_spec_witness :
    emitRows "T".toList "line1\nline2\n".toList =
      [("T".toList, "line1".toList), ("T".toList, "line2".toList)] ∧
    emitRows "T".toList "line1\n\nline2".toList =
      [("T".toList, "line1".toList), ("T".toList, ([] : List Char)),
       ("T".toList, "line2".toList)] := by
  have h1 := (emitter_rows_spec "T".toList ["line1".toList, "line2".toList]
    (by decide) (by decide)).1
  have h2 := (emitter_rows_spec "T".toList
    ["line1".toList, [], "line2".toList] (by decide) (by decide)).2 (by decide)
  rw [show joinNl ["line1".toList, "line2".toList] ++ ['\n'] =
    "line1\nline2\n".toList from by decide] at h1
  rw [show joinNl ["line1".toList, [], "line2".toList] =
    "line1\n\nline2".toList from by decide] at h2
  rw [h1, h2]
  exact ⟨by decide, by decide⟩

/-! ## Claim C5: where the colophon marker split happens -/

theorem takeLine_cons (c : Char) (cs : List Char) :
    takeLine (c :: cs) = if c = '\n' then [] else c :: takeLine cs := by
  simp only [takeLine, List.takeWhile_cons]
  by_cases hc : c = '\n' <;> simp [hc]

theorem lineRest_cons (c : Char) (cs : List Char) :
    lineRest (c :: cs) = if c = '\n' then c :: cs else lineRest cs := by
  simp only [lineRest, List.dropWhile_cons]
  by_cases hc : c = '\n' <;> simp [hc]

theorem takeLine_append (x z : List Char) :
    takeLine (x ++ '\n' :: z) = takeLine x := by
  induction x with
  | nil => rfl
  | cons c x ih =>
    rw [List.cons_append, takeLine_cons, takeLine_cons]
    by_cases hc : c = '\n'
    · rw [if_pos hc, if_pos hc]
    · rw [if_neg hc, if_neg hc, ih]

theorem takeLine_no_nl {x : List Char} (h : '\n' ∉ x) : takeLine x = x :=
  List.takeWhile_eq_self_iff.mpr fun c hc => by
    simp only [Bool.not_eq_true']
    exact beq_eq_false_iff_ne.mpr fun hcn => h (hcn ▸ hc)

theorem lineRest_append_no_nl {x : List Char} (z : List Char) (h : '\n' ∉ x) :
    lineRest (x ++ '\n' :: z) = '\n' :: z := by
  induction x with
  | nil => rfl
  | cons c x ih =>
    rw [List.cons_append, lineRest_cons,
      if_neg fun hc => h (by rw [← hc]; exact List.mem_cons_self c x)]
    exact ih fun hx => h (List.mem_cons_of_mem c hx)

/-- C5 counterexample: on a candidate body with two marker lines the split
does not occur at the last one — the main body the code returns is the text
before the **first** marker line, which differs from the text before the last
occurrence (under either reading of where that occurrence ends). -/
theorem teihon_split_not_at_last :
    (colophonSplit "X\nA底本：P\nB底本：Q\nZ".toList).map Prod.fst =
      some "X".toList ∧
    ("X".toList : List Char) ≠ "X\nA底本：P".toList ∧
    ("X".toList : List Char) ≠ "X\nA底本：P\n".toList := by decide

theorem teihonScan_first (a l rest v : List Char)
    (ha : teihonScan a = none) (hl : '\n' ∉ l) (hv : afterLastTok l = some v) :
    teihonScan (a ++ '\n' :: (l ++ '\n' :: rest)) =
      some (a, v ++ '\n' :: rest) := by
  induction a with
  | nil =>
    rw [List.nil_append, teihonScan, if_pos rfl, takeLine_append,
      takeLine_no_nl hl, hv, lineRest_append_no_nl rest hl]
  | cons c a ih =>
    rw [teihonScan] at ha
    by_cases hc : c = '\n'
    · rw [if_pos hc] at ha
      cases hat : afterLastTok (takeLine a) with
      | some x =>
        rw [hat] at ha
        exact Option.noConfusion ha
      | none =>
        rw [hat] at ha
        have ha2 : teihonScan a = none := by
          cases hts : teihonScan a with
          | none => rfl
          | some p =>
            rw [hts] at ha
            exact Option.noConfusion ha
        rw [List.cons_append, teihonScan, if_pos hc, takeLine_append, hat,
          ih ha2]
        rfl
    · rw [if_neg hc] at ha
      have ha2 : teihonScan a = none := by
        cases hts : teihonScan a with
        | none => rfl
        | some p =>
          rw [hts] at ha
          exact Option.noConfusion ha
      rw [List.cons_append, teihonScan, if_neg hc, ih ha2]
      rfl

/-- C5 (amended): when a candidate body splits as
`a ++ newline ++ line ++ newline ++ rest` with no marker line inside `a` and
the marker token inside `line`, colophon separation tier (a) splits at this
**first** marker line: the main body is the text before its newline and the
colophon is the line's text after its last `底本：` token followed by the
remaining lines. -/
theorem teihon_splits_at_first_line (a l rest v : List Char)
    (ha : teihonScan a = none) (hl : '\n' ∉ l) (hv : afterLastTok l = some v) :
    colophonSplit (a ++ '\n' :: (l ++ '\n' :: rest)) =
      some (a, v ++ '\n' :: rest) := by
  unfold colophonSplit
  rw [teihonScan_first a l rest v ha hl hv]

theorem teihon_splits_at_first_line_witness :
    colophonSplit "X\nA底本：P\nZ".toList = some ("X".toList, "P\nZ".toList) := by
  have h := teihon_splits_at_first_line "X".toList "A底本：P".toList "Z".toList
    "P".toList (by decide) (by decide) (by decide)
  rw [show "X".toList ++ '\n' :: ("A底本：P".toList ++ '\n' :: "Z".toList) =
    "X\nA底本：P\nZ".toList from by decide] at h
  rw [h]
  decide

/-! ## Claim C8: the inline divider block -/

/-- C8 counterexample: a region bounded by runs of exactly four hyphens is
left in place — the divider pattern requires runs of at least seven, so
nothing would be removed from this body although the claim predicts the whole
region (here the whole text) disappears. -/
theorem divider_four_hyphens_kept :
    removeDivider "----abc----".toList = "----abc----".toList ∧
    "----abc----".toList ≠ ([] : List Char) := by decide

theorem hyphenRun_cons (c : Char) (cs : List Char) :
    hyphenRun (c :: cs) = if c = '-' then hyphenRun cs + 1 else 0 := by
  simp only [hyphenRun, List.takeWhile_cons]
  by_cases hc : c = '-' <;> simp [hc]

theorem hyphenRun_le_length (s : List Char) : hyphenRun s ≤ s.length :=
  (List.takeWhile_sublist _).length_le

theorem hyphenRun_append_of_lt {x : List Char} (z : List Char)
    (h : hyphenRun x < x.length) : hyphenRun (x ++ z) = hyphenRun x := by
  induction x with
  | nil => simp [hyphenRun] at h
  | cons c x ih =>
    rw [List.cons_append, hyphenRun_cons, hyphenRun_cons]
    by_cases hc : c = '-'
    · rw [if_pos hc, if_pos hc]
      rw [hyphenRun_cons, if_pos hc, List.length_cons] at h
      exact congrArg (· + 1) (ih (by omega))
    · rw [if_neg hc, if_neg hc]

theorem hyphenRun_lt_of_getLast {x : List Char} (hne : x ≠ [])
    (h : x.getLast? ≠ some '-') : hyphenRun x < x.length := by
  induction x with
  | nil => exact absurd rfl hne
  | cons c x ih =>
    rw [hyphenRun_cons, List.length_cons]
    cases x with
    | nil =>
      have hc : ¬c = '-' := fun hc => h (by rw [hc]; rfl)
      rw [if_neg hc]
      omega
    | cons d x2 =>
      by_cases hc : c = '-'
      · rw [if_pos hc]
        have := ih (fun hh => List.noConfusion hh) h
        omega
      · rw [if_neg hc]
        omega

theorem find7_none {c : Char} {cs : List Char} (h : find7 (c :: cs) = none) :
    hyphenRun (c :: cs) < 7 ∧ find7 cs = none := by
  rw [find7] at h
  by_cases hr : 7 ≤ hyphenRun (c :: cs)
  · rw [if_pos hr] at h
    exact Option.noConfusion h
  · rw [if_neg hr] at h
    exact ⟨by omega, Option.map_eq_none.mp h⟩

theorem hasRun7_false {s : List Char} (h : hasRun7 s = false) :
    find7 s = none := by
  unfold hasRun7 at h
  cases hf : find7 s with
  | none => rfl
  | some m =>
    rw [hf] at h
    exact Bool.noConfusion h

theorem hasRun7_of_find7 {s : List Char} (h : find7 s = none) :
    hasRun7 s = false := by
  unfold hasRun7
  rw [h]
  rfl

theorem matchDivider_none {s : List Char} (h : hyphenRun s < 7) :
    matchDivider s = none := by
  unfold matchDivider
  rw [if_neg (by omega)]

theorem dividerGo_fuel (f1 f2 : Nat) (s : List Char)
    (h1 : s.length ≤ f1) (h2 : s.length ≤ f2) :
    dividerGo f1 s = dividerGo f2 s := by
  induction f1 generalizing s f2 with
  | zero =>
    have hs : s = [] := List.eq_nil_of_length_eq_zero (by omega)
    subst hs
    cases f2 <;> rfl
  | succ f1 ih =>
    cases s with
    | nil => cases f2 <;> rfl
    | cons c cs =>
      cases f2 with
      | zero => simp at h2
      | succ f2 =>
        cases hm : matchDivider (c :: cs) with
        | some e =>
          simp only [dividerGo, hm]
          exact ih f2 (cs.drop (e - 1))
            (by have := List.length_drop (e - 1) cs; simp at h1; omega)
            (by have := List.length_drop (e - 1) cs; simp at h2; omega)
        | none =>
          simp only [dividerGo, hm]
          rw [ih f2 cs (by simp at h1; omega) (by simp at h2; omega)]

theorem dividerGo_pre (pre : List Char) (z : List Char) (f : Nat)
    (h1 : hasRun7 pre = false) (h2 : pre.getLast? ≠ some '-') :
    dividerGo f (pre ++ z) = pre ++ dividerGo (f - pre.length) z := by
  induction pre generalizing f with
  | nil => simp
  | cons c pre ih =>
    have hfind := find7_none (hasRun7_false h1)
    have hlt : hyphenRun (c :: pre) < (c :: pre).length :=
      hyphenRun_lt_of_getLast (fun hh => List.noConfusion hh) h2
    have hrun : hyphenRun ((c :: pre) ++ z) < 7 := by
      rw [hyphenRun_append_of_lt z hlt]
      exact hfind.1
    cases f with
    | zero =>
      -- out of fuel: both sides are the untouched text
      simp only [Nat.zero_sub, dividerGo]
    | succ f =>
      rw [List.cons_append] at hrun ⊢
      simp only [dividerGo, matchDivider_none hrun]
      have h2p : pre.getLast? ≠ some '-' := by
        cases pre with
        | nil => exact fun hh => Option.noConfusion hh
        | cons d pre2 => exact h2
      rw [ih f (hasRun7_of_find7 hfind.2) h2p]
      simp [Nat.succ_sub_succ]

theorem hyphenRun_replicate_append (n : Nat) (z : List Char) :
    hyphenRun (List.replicate n '-' ++ z) = n + hyphenRun z := by
  induction n with
  | zero => simp
  | succ n ih =>
    rw [List.replicate_succ, List.cons_append, hyphenRun_cons, if_pos rfl, ih]
    omega

theorem hyphenRun_eq_zero {s : List Char} (h : s.head? ≠ some '-') :
    hyphenRun s = 0 := by
  cases s with
  | nil => rfl
  | cons c cs =>
    rw [hyphenRun_cons, if_neg fun hc => h (by rw [hc]; rfl)]

theorem find7_mid (mid post : List Char) (n2 : Nat) (hn2 : 7 ≤ n2)
    (h4 : hasRun7 mid = false) (h3 : mid.getLast? ≠ some '-') :
    find7 (mid ++ (List.replicate n2 '-' ++ post)) = some mid.length := by
  induction mid with
  | nil =>
    obtain ⟨m, rfl⟩ : ∃ m, n2 = m + 1 := ⟨n2 - 1, by omega⟩
    rw [List.nil_append, show List.replicate (m + 1) '-' ++ post =
      '-' :: (List.replicate m '-' ++ post) from rfl, find7,
      if_pos (by
        rw [show ('-' :: (List.replicate m '-' ++ post) : List Char) =
          List.replicate (m + 1) '-' ++ post from rfl,
          hyphenRun_replicate_append]
        omega)]
    rfl
  | cons m mid ih =>
    have hfind := find7_none (hasRun7_false h4)
    have hlt : hyphenRun (m :: mid) < (m :: mid).length :=
      hyphenRun_lt_of_getLast (fun hh => List.noConfusion hh) h3
    have h3p : mid.getLast? ≠ some '-' := by
      cases mid with
      | nil => exact fun hh => Option.noConfusion hh
      | cons d mid2 => exact h3
    rw [List.cons_append, find7,
      if_neg (by
        rw [show (m :: (mid ++ (List.replicate n2 '-' ++ post)) : List Char) =
          (m :: mid) ++ (List.replicate n2 '-' ++ post) from rfl,
          hyphenRun_append_of_lt _ hlt]
        omega),
      ih (hasRun7_of_find7 hfind.2) h3p]
    rfl

/-- When the lazy middle already finds a seven-hyphen run with the first run
at its greedy maximal extent, the backtracking succeeds immediately. -/
theorem tryRGo_found (s : List Char) (k r m : Nat)
    (h : find7 (s.drop r) = some m) :
    tryRGo s k r = some (r + m + hyphenRun (s.drop (r + m))) := by
  cases k with
  | zero => rw [tryRGo, h]
  | succ k => rw [tryRGo, h]

theorem matchDivider_two_runs (mid post : List Char) (n1 n2 : Nat)
    (hn1 : 7 ≤ n1) (hn2 : 7 ≤ n2)
    (hm0 : mid ≠ []) (hm1 : mid.head? ≠ some '-') (hm2 : mid.getLast? ≠ some '-')
    (hm3 : hasRun7 mid = false) (hp : post.head? ≠ some '-') :
    matchDivider (List.replicate n1 '-' ++ (mid ++ (List.replicate n2 '-' ++ post)))
      = some (n1 + mid.length + n2) := by
  have hmid0 : hyphenRun (mid ++ (List.replicate n2 '-' ++ post)) = 0 := by
    cases mid with
    | nil => exact absurd rfl hm0
    | cons m mid2 =>
      rw [List.cons_append, hyphenRun_cons,
        if_neg fun hc => hm1 (by rw [hc]; rfl)]
  have hrun : hyphenRun (List.replicate n1 '-' ++
      (mid ++ (List.replicate n2 '-' ++ post))) = n1 := by
    rw [hyphenRun_replicate_append, hmid0]
    omega
  have hdropN1 : (List.replicate n1 '-' ++
      (mid ++ (List.replicate n2 '-' ++ post))).drop n1 =
      mid ++ (List.replicate n2 '-' ++ post) := by
    simp
  have hdropMid : (List.replicate n1 '-' ++
      (mid ++ (List.replicate n2 '-' ++ post))).drop (n1 + mid.length) =
      List.replicate n2 '-' ++ post := by
    rw [show n1 + mid.length =
      (List.replicate n1 '-').length + mid.length from by simp,
      List.drop_append, List.drop_left]
  unfold matchDivider
  rw [hrun, if_pos (by omega),
    tryRGo_found _ (n1 - 7) n1 mid.length
      (by rw [hdropN1]; exact find7_mid mid post n2 hn2 hm3 hm2),
    hdropMid, hyphenRun_replicate_append, hyphenRun_eq_zero hp]
  simp

/-- C8 (amended): a region bounded by two runs of **seven or more** hyphens —
preceded by text with no seven-hyphen run and not ending in a hyphen, with a
middle containing no seven-hyphen run and neither starting nor ending in a
hyphen, and followed by text not starting with a hyphen — is removed in
full, both runs included, and the scan continues on the following text. -/
theorem divider_first_region_removed (pre mid post : List Char) (n1 n2 : Nat)
    (hn1 : 7 ≤ n1) (hn2 : 7 ≤ n2)
    (h1 : hasRun7 pre = false) (h2 : pre.getLast? ≠ some '-')
    (hm0 : mid ≠ []) (hm1 : mid.head? ≠ some '-') (hm2 : mid.getLast? ≠ some '-')
    (hm3 : hasRun7 mid = false) (hp : post.head? ≠ some '-') :
    removeDivider (pre ++ (List.replicate n1 '-' ++
        (mid ++ (List.replicate n2 '-' ++ post)))) =
      pre ++ removeDivider post := by
  obtain ⟨m1, rfl⟩ : ∃ m, n1 = m + 1 := ⟨n1 - 1, by omega⟩
  unfold removeDivider
  rw [dividerGo_pre pre _ _ h1 h2]
  congr 1
  have hflen : (pre ++ (List.replicate (m1 + 1) '-' ++
      (mid ++ (List.replicate n2 '-' ++ post)))).length - pre.length =
      (m1 + mid.length + n2 + post.length) + 1 := by
    simp [List.length_append]
    omega
  rw [hflen]
  have hm : matchDivider ('-' :: (List.replicate m1 '-' ++
      (mid ++ (List.replicate n2 '-' ++ post)))) =
      some ((m1 + 1) + mid.length + n2) :=
    matchDivider_two_runs mid post (m1 + 1) n2 hn1 hn2 hm0 hm1 hm2 hm3 hp
  rw [show List.replicate (m1 + 1) '-' ++ (mid ++ (List.replicate n2 '-' ++ post)) =
    '-' :: (List.replicate m1 '-' ++ (mid ++ (List.replicate n2 '-' ++ post)))
    from rfl]
  simp only [dividerGo, hm]
  have hdrop : ((List.replicate m1 '-' ++
      (mid ++ (List.replicate n2 '-' ++ post)))).drop
      ((m1 + 1) + mid.length + n2 - 1) = post := by
    have e1 : ((m1 + 1) + mid.length + n2 - 1 : Nat) =
        (List.replicate m1 '-').length + (mid.length + n2) := by
      simp
      omega
    rw [e1, List.drop_append, List.drop_append n2]
    simp
  rw [hdrop]
  exact dividerGo_fuel _ _ post (by omega) (le_refl _)

theorem divider_first_region_removed_witness :
    removeDivider ("ab".toList ++ (List.replicate 8 '-' ++ ("XY".toList ++
        (List.replicate 9 '-' ++ "cd".toList)))) =
      "ab".toList ++ removeDivider "cd".toList :=
  divider_first_region_removed "ab".toList "XY".toList "cd".toList 8 9
    (by decide) (by decide) (by decide) (by decide) (by decide) (by decide)
    (by decide) (by decide) (by decide)

/-! ## Claim C9: the noise stripper is idempotent

The proof characterises the fixed points of the two line-removal scans.  A
text is `Inert3` when no line start matches the word-line pattern, and
`Inert4` when no line is a space-only line; both properties are determined
line-locally, are established by the respective scan, and are preserved by
the other scan, so a second pass changes nothing. -/

theorem isWs_nl : isWs '\n' = true := rfl

theorem isW_nl : isW '\n' = false := rfl

theorem lastNlSplit_none {ws : List Char} (h : '\n' ∉ ws) :
    lastNlSplit ws = none := by
  induction ws with
  | nil => rfl
  | cons c cs ih =>
    rw [lastNlSplit, ih fun hm => h (List.mem_cons_of_mem c hm),
      if_neg fun hc => h (by rw [← hc]; exact List.mem_cons_self c cs)]

theorem lastNlSplit_isSome {ws : List Char} (h : '\n' ∈ ws) :
    (lastNlSplit ws).isSome = true := by
  induction ws with
  | nil => cases h
  | cons c cs ih =>
    rw [lastNlSplit]
    cases hc : lastNlSplit cs with
    | some r => rfl
    | none =>
      have hnc : '\n' ∉ cs := fun hm => by
        have := ih hm
        rw [hc] at this
        exact Bool.noConfusion this
      have : c = '\n' := by
        cases List.mem_cons.mp h with
        | inl h1 => exact h1.symm
        | inr h2 => exact absurd h2 hnc
      rw [if_pos this]
      rfl

theorem takeWhile_of_dropWhile_nil {p : Char → Bool} {x : List Char}
    (h : x.dropWhile p = []) : x.takeWhile p = x :=
  List.takeWhile_eq_self_iff.mpr (List.dropWhile_eq_nil_iff.mp h)

theorem length_takeWhile_add_dropWhile (p : Char → Bool) (x : List Char) :
    (x.takeWhile p).length + (x.dropWhile p).length = x.length := by
  conv_rhs => rw [← List.takeWhile_append_dropWhile (p := p) (l := x)]
  rw [List.length_append]

theorem takeWhile_length_ne {p : Char → Bool} {x : List Char}
    (h : x.dropWhile p ≠ []) : ¬(x.takeWhile p).length = x.length := by
  intro hlen
  have := length_takeWhile_add_dropWhile p x
  have : (x.dropWhile p).length = 0 := by omega
  exact h (List.eq_nil_of_length_eq_zero this)

/-- Intra-line test: the line is whitespace-only. -/
def lineAllWs (l : List Char) : Bool := (l.dropWhile isWs).isEmpty

/-- Intra-line test: the word-line pattern fails on this line for a reason
internal to the line — its first non-whitespace character is not a word
character, or its word run is followed, after more whitespace, by a further
character on the same line. -/
def lineInert (l : List Char) : Bool :=
  match l.dropWhile isWs with
  | [] => false
  | c :: _ =>
    !(isW c) || !(((l.dropWhile isWs).dropWhile isW).dropWhile isWs).isEmpty

/-- `tryMatch3` only looks at the text from its first non-whitespace
character on. -/
theorem tryMatch3_congr {s t : List Char}
    (h : s.dropWhile isWs = t.dropWhile isWs) : tryMatch3 s = tryMatch3 t := by
  unfold tryMatch3
  rw [h]


/-- `tryMatch3` with its let-bindings expanded. -/
theorem tryMatch3_eq (s : List Char) :
    tryMatch3 s =
      if ((s.dropWhile isWs).takeWhile isW).isEmpty = true then none
      else
        if (((s.dropWhile isWs).dropWhile isW).dropWhile isWs).isEmpty = true then
          some []
        else
          match lastNlSplit (((s.dropWhile isWs).dropWhile isW).takeWhile isWs) with
          | some r => some (r ++ ((s.dropWhile isWs).dropWhile isW).dropWhile isWs)
          | none => none := rfl

theorem dropWhile_ws_append_allWs {l : List Char} (X : List Char)
    (h : lineAllWs l = true) :
    (l ++ '\n' :: X).dropWhile isWs = X.dropWhile isWs := by
  rw [List.dropWhile_append,
    if_pos (show (List.dropWhile isWs l).isEmpty = true from h),
    List.dropWhile_cons, if_pos isWs_nl]

theorem dropWhile_ws_append {l : List Char} (X : List Char)
    (h : ¬lineAllWs l = true) :
    (l ++ '\n' :: X).dropWhile isWs = l.dropWhile isWs ++ '\n' :: X := by
  rw [List.dropWhile_append,
    if_neg (show ¬(List.dropWhile isWs l).isEmpty = true from h)]

/-- Failure of the word-line pattern at the start of `line ++ newline ++ X`
is equivalent to an intra-line failure, or to the line being all whitespace
and the pattern failing at the start of `X`. -/
theorem tryMatch3_line_iff (l X : List Char) (hl : '\n' ∉ l) :
    tryMatch3 (l ++ '\n' :: X) = none ↔
      lineInert l = true ∨ (lineAllWs l = true ∧ tryMatch3 X = none) := by
  by_cases hall : lineAllWs l = true
  · have hcongr : tryMatch3 (l ++ '\n' :: X) = tryMatch3 X :=
      tryMatch3_congr (dropWhile_ws_append_allWs X hall)
    have hinert : lineInert l = false := by
      unfold lineInert
      unfold lineAllWs at hall
      rw [List.isEmpty_iff.mp hall]
    rw [hcongr, hinert]
    simp [hall]
  · have hdw0 : (l ++ '\n' :: X).dropWhile isWs = l.dropWhile isWs ++ '\n' :: X :=
      dropWhile_ws_append X hall
    cases h1 : l.dropWhile isWs with
    | nil => exact absurd (by unfold lineAllWs; rw [h1]; rfl) hall
    | cons c t1 =>
      rw [h1] at hdw0
      have hnll : '\n' ∉ (c :: t1) := fun hm => hl (by
        rw [← h1] at hm
        exact (List.dropWhile_sublist isWs).subset hm)
      cases hcw : isW c with
      | false =>
        have hinert : lineInert l = true := by
          unfold lineInert
          rw [h1]
          simp [hcw]
        have hmain : tryMatch3 (l ++ '\n' :: X) = none := by
          rw [tryMatch3_eq, hdw0, List.cons_append, List.takeWhile_cons]
          simp [hcw]
        simp [hmain, hinert]
      | true =>
        have hw : (((c :: t1) ++ '\n' :: X).takeWhile isW).isEmpty = false := by
          rw [List.cons_append, List.takeWhile_cons]
          simp [hcw]
        cases h2 : (c :: t1).dropWhile isW with
        | nil =>
          have hdw2 : ((c :: t1) ++ '\n' :: X).dropWhile isW = '\n' :: X := by
            rw [List.dropWhile_append, if_pos (by rw [h2]; rfl),
              List.dropWhile_cons]
            simp [isW_nl]
          have hinert : lineInert l = false := by
            unfold lineInert
            rw [h1]
            simp [hcw, h2]
          have hmain : ¬tryMatch3 (l ++ '\n' :: X) = none := by
            rw [tryMatch3_eq, hdw0, if_neg (by rw [hw]; simp), hdw2,
              List.dropWhile_cons, List.takeWhile_cons]
            simp only [isWs_nl, if_true]
            by_cases h4 : (X.dropWhile isWs).isEmpty = true
            · rw [if_pos h4]
              simp
            · rw [if_neg h4]
              cases hsp : lastNlSplit ('\n' :: X.takeWhile isWs) with
              | some r =>
                simp
              | none =>
                have hs := lastNlSplit_isSome
                  (List.mem_cons_self '\n' (X.takeWhile isWs))
                rw [hsp] at hs
                exact absurd hs (by simp)
          refine ⟨fun h => absurd h hmain, fun h => ?_⟩
          rcases h with h | ⟨h, _⟩
          · rw [hinert] at h
            exact Bool.noConfusion h
          · exact absurd h hall
        | cons e d2 =>
          have hdw2 : ((c :: t1) ++ '\n' :: X).dropWhile isW =
              (e :: d2) ++ '\n' :: X := by
            rw [List.dropWhile_append, if_neg (by rw [h2]; simp), h2]
          have hnl2 : '\n' ∉ (e :: d2) := fun hm => hnll (by
            rw [← h2] at hm
            exact (List.dropWhile_sublist isW).subset hm)
          cases h3 : (e :: d2).dropWhile isWs with
          | nil =>
            have hdw3 : (((c :: t1) ++ '\n' :: X).dropWhile isW).dropWhile isWs
                = X.dropWhile isWs := by
              rw [hdw2, List.dropWhile_append, if_pos (by rw [h3]; rfl),
                List.dropWhile_cons]
              simp [isWs_nl]
            have htw3 : (((c :: t1) ++ '\n' :: X).dropWhile isW).takeWhile isWs
                = (e :: d2) ++ '\n' :: X.takeWhile isWs := by
              rw [hdw2, List.takeWhile_append,
                if_pos (by rw [takeWhile_of_dropWhile_nil h3]),
                List.takeWhile_cons]
              simp [isWs_nl]
            have hinert : lineInert l = false := by
              unfold lineInert
              rw [h1]
              simp [hcw, h2, h3]
            have hmain : ¬tryMatch3 (l ++ '\n' :: X) = none := by
              rw [tryMatch3_eq, hdw0, if_neg (by rw [hw]; simp), hdw3, htw3]
              by_cases h4 : (X.dropWhile isWs).isEmpty = true
              · rw [if_pos h4]
                simp
              · rw [if_neg h4]
                cases hsp : lastNlSplit ((e :: d2) ++ '\n' :: X.takeWhile isWs) with
                | some r =>
                  simp
                | none =>
                  have hs := lastNlSplit_isSome
                    (List.mem_append_right (e :: d2)
                      (List.mem_cons_self '\n' (X.takeWhile isWs)))
                  rw [hsp] at hs
                  exact absurd hs (by simp)
            refine ⟨fun h => absurd h hmain, fun h => ?_⟩
            rcases h with h | ⟨h, _⟩
            · rw [hinert] at h
              exact Bool.noConfusion h
            · exact absurd h hall
          | cons g r3 =>
            have htw3 : (((c :: t1) ++ '\n' :: X).dropWhile isW).takeWhile isWs
                = (e :: d2).takeWhile isWs := by
              rw [hdw2, List.takeWhile_append,
                if_neg (takeWhile_length_ne (by rw [h3]; simp))]
            have hdw3 : (((c :: t1) ++ '\n' :: X).dropWhile isW).dropWhile isWs
                = (g :: r3) ++ '\n' :: X := by
              rw [hdw2, List.dropWhile_append, if_neg (by rw [h3]; simp), h3]
            have hnone : lastNlSplit ((e :: d2).takeWhile isWs) = none :=
              lastNlSplit_none fun hm =>
                hnl2 ((List.takeWhile_sublist isWs).subset hm)
            have hinert : lineInert l = true := by
              unfold lineInert
              rw [h1]
              simp [hcw, h2, h3]
            have hmain : tryMatch3 (l ++ '\n' :: X) = none := by
              rw [tryMatch3_eq, hdw0, if_neg (by rw [hw]; simp), hdw3,
                if_neg (by simp), htw3, hnone]
            simp [hmain, hinert]

/-- End-of-text variant of `tryMatch3_line_iff`: on the final (unterminated)
line the pattern fails exactly when the line fails intrinsically or is all
whitespace. -/
theorem tryMatch3_last_iff (l : List Char) (hl : '\n' ∉ l) :
    tryMatch3 l = none ↔ lineInert l = true ∨ lineAllWs l = true := by
  cases h1 : l.dropWhile isWs with
  | nil =>
    have hall : lineAllWs l = true := by unfold lineAllWs; rw [h1]; rfl
    have hmain : tryMatch3 l = none := by
      rw [tryMatch3_eq, h1]
      rfl
    simp [hmain, hall]
  | cons c t1 =>
    have hall : lineAllWs l = false := by unfold lineAllWs; rw [h1]; rfl
    have hnlc : '\n' ∉ (c :: t1) := fun hm => hl (by
      rw [← h1] at hm
      exact (List.dropWhile_sublist isWs).subset hm)
    cases hcw : isW c with
    | false =>
      have hinert : lineInert l = true := by
        unfold lineInert
        rw [h1]
        simp [hcw]
      have hmain : tryMatch3 l = none := by
        rw [tryMatch3_eq, h1, List.takeWhile_cons]
        simp [hcw]
      simp [hmain, hinert]
    | true =>
      have hw : ((c :: t1).takeWhile isW).isEmpty = false := by
        rw [List.takeWhile_cons]
        simp [hcw]
      cases h3 : ((c :: t1).dropWhile isW).dropWhile isWs with
      | nil =>
        have hinert : lineInert l = false := by
          unfold lineInert
          rw [h1, h3]
          simp [hcw]
        have hmain : ¬tryMatch3 l = none := by
          rw [tryMatch3_eq, h1, if_neg (by rw [hw]; simp),
            if_pos (by rw [h3]; rfl)]
          simp
        refine ⟨fun h => absurd h hmain, fun h => ?_⟩
        rcases h with h | h
        · rw [hinert] at h
          exact Bool.noConfusion h
        · rw [hall] at h
          exact Bool.noConfusion h
      | cons g r3 =>
        have hnone : lastNlSplit (((c :: t1).dropWhile isW).takeWhile isWs) = none :=
          lastNlSplit_none fun hm => hnlc
            ((List.dropWhile_sublist isW).subset
              ((List.takeWhile_sublist isWs).subset hm))
        have hinert : lineInert l = true := by
          unfold lineInert
          rw [h1, h3]
          simp [hcw]
        have hmain : tryMatch3 l = none := by
          rw [tryMatch3_eq, h1, if_neg (by rw [hw]; simp), h3,
            if_neg (by simp), hnone]
        simp [hmain, hinert]


/-- No line start of the text matches the word-line pattern. -/
inductive Inert3 : List Char → Prop
  | nil : Inert3 []
  | last (l : List Char) : '\n' ∉ l → lineInert l = true ∨ lineAllWs l = true →
      Inert3 l
  | cons (l X : List Char) : '\n' ∉ l →
      lineInert l = true ∨ lineAllWs l = true → Inert3 X →
      Inert3 (l ++ '\n' :: X)

theorem Inert3_none {s : List Char} (h : Inert3 s) : tryMatch3 s = none := by
  induction h with
  | nil => rfl
  | last l hnl hline => exact (tryMatch3_last_iff l hnl).mpr hline
  | cons l X hnl hline hX ih =>
    refine (tryMatch3_line_iff l X hnl).mpr ?_
    rcases hline with h | h
    · exact Or.inl h
    · exact Or.inr ⟨h, ih⟩

theorem nl_decomp_unique {l l2 X X2 : List Char} (hl : '\n' ∉ l)
    (hl2 : '\n' ∉ l2) (h : l ++ '\n' :: X = l2 ++ '\n' :: X2) :
    l = l2 ∧ X = X2 := by
  induction l generalizing l2 with
  | nil =>
    cases l2 with
    | nil => simpa using h
    | cons c2 m2 =>
      rw [List.nil_append, List.cons_append] at h
      injection h with h1 h2
      exact absurd (by rw [h1]; exact List.mem_cons_self c2 m2) hl2
  | cons c m ih =>
    cases l2 with
    | nil =>
      rw [List.cons_append, List.nil_append] at h
      injection h with h1 h2
      exact absurd (by rw [← h1]; exact List.mem_cons_self c m) hl
    | cons c2 m2 =>
      rw [List.cons_append, List.cons_append] at h
      injection h with h1 h2
      obtain ⟨e1, e2⟩ := ih (fun hm => hl (List.mem_cons_of_mem c hm))
        (fun hm => hl2 (List.mem_cons_of_mem c2 hm)) h2
      exact ⟨by rw [h1, e1], e2⟩

theorem Inert3_inv {l X : List Char} (hl : '\n' ∉ l)
    (h : Inert3 (l ++ '\n' :: X)) :
    (lineInert l = true ∨ lineAllWs l = true) ∧ Inert3 X := by
  generalize hs : l ++ '\n' :: X = s at h
  cases h with
  | nil => exact absurd hs (by simp)
  | last l2 hnl2 hline2 =>
    exact absurd (hs ▸ List.mem_append_right l (List.mem_cons_self '\n' X)) hnl2
  | cons l2 X2 hnl2 hline2 hX2 =>
    obtain ⟨e1, e2⟩ := nl_decomp_unique hl hnl2 hs
    subst e1
    subst e2
    exact ⟨hline2, hX2⟩

theorem lastNlSplit_length {ws r : List Char} (h : lastNlSplit ws = some r) :
    r.length < ws.length := by
  induction ws generalizing r with
  | nil => exact Option.noConfusion h
  | cons c cs ih =>
    rw [lastNlSplit] at h
    cases hc : lastNlSplit cs with
    | some r2 =>
      rw [hc] at h
      injection h with h2
      subst h2
      have := ih hc
      simp only [List.length_cons]
      omega
    | none =>
      rw [hc] at h
      by_cases hcn : c = '\n'
      · rw [if_pos hcn] at h
        injection h with h2
        subst h2
        simp
      · rw [if_neg hcn] at h
        exact Option.noConfusion h

theorem tryMatch3_some_length {s rest : List Char}
    (h : tryMatch3 s = some rest) : rest.length < s.length := by
  rw [tryMatch3_eq] at h
  have hlen1 := length_takeWhile_add_dropWhile isWs s
  have hlen2 := length_takeWhile_add_dropWhile isW (s.dropWhile isWs)
  have hlen3 := length_takeWhile_add_dropWhile isWs
    ((s.dropWhile isWs).dropWhile isW)
  by_cases hW : ((s.dropWhile isWs).takeWhile isW).isEmpty = true
  · rw [if_pos hW] at h
    exact Option.noConfusion h
  · rw [if_neg hW] at h
    have hwpos : 0 < ((s.dropWhile isWs).takeWhile isW).length := by
      cases hx : (s.dropWhile isWs).takeWhile isW with
      | nil => rw [hx] at hW; exact absurd rfl hW
      | cons a b => simp [hx]

    by_cases hT : (((s.dropWhile isWs).dropWhile isW).dropWhile isWs).isEmpty = true
    · rw [if_pos hT] at h
      injection h with h2
      rw [← h2]
      simp only [List.length_nil]
      omega
    · rw [if_neg hT] at h
      cases hsp : lastNlSplit (((s.dropWhile isWs).dropWhile isW).takeWhile isWs) with
      | none =>
        rw [hsp] at h
        exact Option.noConfusion h
      | some r =>
        rw [hsp] at h
        injection h with h2
        rw [← h2, List.length_append]
        have hr := lastNlSplit_length hsp
        omega

theorem wordLinesGo_zero (s : List Char) : wordLinesGo 0 s = s := rfl

theorem blankLinesGo_zero (s : List Char) : blankLinesGo 0 s = s := rfl

theorem wordLinesGo_cons_eq (fuel : Nat) (s : List Char) (hs : s ≠ []) :
    wordLinesGo (fuel + 1) s =
      match tryMatch3 s with
      | some rest => wordLinesGo fuel rest
      | none =>
        takeLine s ++
          match lineRest s with
          | [] => []
          | _ :: r => '\n' :: wordLinesGo fuel r := by
  cases s with
  | nil => exact absurd rfl hs
  | cons c cs => rfl

theorem blankLinesGo_cons_eq (fuel : Nat) (s : List Char) (hs : s ≠ []) :
    blankLinesGo (fuel + 1) s =
      if (s.dropWhile (fun c => c == ' ')).head? = some '\n' then
        blankLinesGo fuel (s.dropWhile (fun c => c == ' ')).tail
      else
        takeLine s ++
          match lineRest s with
          | [] => []
          | _ :: r => '\n' :: blankLinesGo fuel r := by
  cases s with
  | nil => exact absurd rfl hs
  | cons c cs => rfl

theorem lineRest_head {s x : List Char} {c : Char} (h : lineRest s = c :: x) :
    c = '\n' := by
  have hh := List.head?_dropWhile_not (fun c => !(c == '\n')) s
  rw [show List.dropWhile (fun c => !(c == '\n')) s = lineRest s from rfl,
    h] at hh
  simp at hh
  exact hh

theorem takeLine_decomp {s x : List Char} {c : Char}
    (h : lineRest s = c :: x) : s = takeLine s ++ c :: x := by
  conv_lhs => rw [← List.takeWhile_append_dropWhile
    (p := fun c => !(c == '\n')) (l := s)]
  rw [show List.dropWhile (fun c => !(c == '\n')) s = lineRest s from rfl, h]
  rfl

theorem lineRest_no_nl {x : List Char} (h : '\n' ∉ x) : lineRest x = [] :=
  List.dropWhile_eq_nil_iff.mpr fun c hc => by
    simp only [Bool.not_eq_true']
    exact beq_eq_false_iff_ne.mpr fun hcn => h (hcn ▸ hc)

theorem nl_not_mem_takeLine (s : List Char) : '\n' ∉ takeLine s := fun hm => by
  have := List.mem_takeWhile_imp hm
  simp at this

/-- The word-line scan leaves an inert text unchanged. -/
theorem wordLinesGo_id {s : List Char} (h : Inert3 s) :
    ∀ fuel, wordLinesGo fuel s = s := by
  induction h with
  | nil => intro fuel; cases fuel <;> rfl
  | last l hnl hline =>
    intro fuel
    cases fuel with
    | zero => rfl
    | succ fuel =>
      by_cases hemp : l = []
      · subst hemp; rfl
      · rw [wordLinesGo_cons_eq fuel l hemp,
          (tryMatch3_last_iff l hnl).mpr hline, takeLine_no_nl hnl,
          lineRest_no_nl hnl]
        exact List.append_nil l
  | cons l X hnl hline hX ih =>
    intro fuel
    cases fuel with
    | zero => rfl
    | succ fuel =>
      rw [wordLinesGo_cons_eq fuel _ (by simp),
        Inert3_none (Inert3.cons l X hnl hline hX), takeLine_append,
        takeLine_no_nl hnl, lineRest_append_no_nl X hnl]
      show l ++ '\n' :: wordLinesGo fuel X = l ++ '\n' :: X
      rw [ih fuel]

/-- The word-line scan produces an inert text. -/
theorem Inert3_wordLinesGo (fuel : Nat) :
    ∀ s : List Char, s.length ≤ fuel → Inert3 (wordLinesGo fuel s) := by
  induction fuel with
  | zero =>
    intro s h
    have hs : s = [] := List.eq_nil_of_length_eq_zero (by omega)
    subst hs
    exact Inert3.nil
  | succ fuel ih =>
    intro s hlen
    by_cases hemp : s = []
    · subst hemp; exact Inert3.nil
    · rw [wordLinesGo_cons_eq fuel s hemp]
      cases hm : tryMatch3 s with
      | some rest =>
        exact ih rest (by have := tryMatch3_some_length hm; omega)
      | none =>
        cases hr : lineRest s with
        | nil =>
          have hnl : '\n' ∉ s := fun hmem => by
            have := List.dropWhile_eq_nil_iff.mp hr '\n' hmem
            simp at this
          rw [takeLine_no_nl hnl]
          show Inert3 (s ++ [])
          rw [List.append_nil]
          exact Inert3.last s hnl ((tryMatch3_last_iff s hnl).mp hm)
        | cons x r =>
          have hx : x = '\n' := lineRest_head hr
          subst hx
          have hdec : s = takeLine s ++ '\n' :: r := takeLine_decomp hr
          have hnl := nl_not_mem_takeLine s
          show Inert3 (takeLine s ++ '\n' :: wordLinesGo fuel r)
          have hlenr : r.length ≤ fuel := by
            have : s.length = (takeLine s).length + (r.length + 1) := by
              conv_lhs => rw [hdec]
              rw [List.length_append, List.length_cons]
            omega
          refine Inert3.cons _ _ hnl ?_ (ih r hlenr)
          have hm2 := hm
          rw [hdec] at hm2
          rcases (tryMatch3_line_iff _ _ hnl).mp hm2 with h | ⟨h, _⟩
          · exact Or.inl h
          · exact Or.inr h

/-- The blank-line scan preserves inertness for the word-line pattern. -/
theorem Inert3_blankLinesGo (fuel : Nat) :
    ∀ s : List Char, Inert3 s → s.length ≤ fuel →
      Inert3 (blankLinesGo fuel s) := by
  induction fuel with
  | zero => intro s h _; exact h
  | succ fuel ih =>
    intro s hin hlen
    by_cases hemp : s = []
    · subst hemp; exact Inert3.nil
    · rw [blankLinesGo_cons_eq fuel s hemp]
      by_cases hblank : (s.dropWhile (fun c => c == ' ')).head? = some '\n'
      · rw [if_pos hblank]
        cases hdw : s.dropWhile (fun c => c == ' ') with
        | nil => rw [hdw] at hblank; exact absurd hblank (by simp)
        | cons x r =>
          have hx : x = '\n' := by rw [hdw] at hblank; simpa using hblank
          subst hx
          have hdec : s = s.takeWhile (fun c => c == ' ') ++ '\n' :: r := by
            conv_lhs => rw [← List.takeWhile_append_dropWhile
              (p := fun c => c == ' ') (l := s)]
            rw [hdw]
          have hnlsp : '\n' ∉ s.takeWhile (fun c => c == ' ') := fun hm => by
            have := List.mem_takeWhile_imp hm
            simp at this
          have hX : Inert3 r := by
            have hin2 := hin
            rw [hdec] at hin2
            exact (Inert3_inv hnlsp hin2).2
          show Inert3 (blankLinesGo fuel r)
          have hlenr : r.length ≤ fuel := by
            have : s.length =
                (s.takeWhile (fun c => c == ' ')).length + (r.length + 1) := by
              conv_lhs => rw [hdec]
              rw [List.length_append, List.length_cons]
            omega
          exact ih r hX hlenr
      · rw [if_neg hblank]
        cases hr : lineRest s with
        | nil =>
          have hnl : '\n' ∉ s := fun hmem => by
            have := List.dropWhile_eq_nil_iff.mp hr '\n' hmem
            simp at this
          rw [takeLine_no_nl hnl]
          show Inert3 (s ++ [])
          rw [List.append_nil]
          exact hin
        | cons x r =>
          have hx : x = '\n' := lineRest_head hr
          subst hx
          have hdec : s = takeLine s ++ '\n' :: r := takeLine_decomp hr
          have hnl := nl_not_mem_takeLine s
          have hpair := Inert3_inv hnl (hdec ▸ hin)
          show Inert3 (takeLine s ++ '\n' :: blankLinesGo fuel r)
          have hlenr : r.length ≤ fuel := by
            have : s.length = (takeLine s).length + (r.length + 1) := by
              conv_lhs => rw [hdec]
              rw [List.length_append, List.length_cons]
            omega
          exact Inert3.cons _ _ hnl hpair.1 (ih r hpair.2 hlenr)

/-- No line of the text is a space-only line (such a line would be removed
by the blank-line scan). -/
inductive Inert4 : List Char → Prop
  | nil : Inert4 []
  | last (l : List Char) : '\n' ∉ l → Inert4 l
  | cons (l X : List Char) : '\n' ∉ l →
      l.dropWhile (fun c => c == ' ') ≠ [] → Inert4 X →
      Inert4 (l ++ '\n' :: X)

theorem Inert4_inv {l X : List Char} (hl : '\n' ∉ l)
    (h : Inert4 (l ++ '\n' :: X)) :
    l.dropWhile (fun c => c == ' ') ≠ [] ∧ Inert4 X := by
  generalize hs : l ++ '\n' :: X = s at h
  cases h with
  | nil => exact absurd hs (by simp)
  | last l2 hnl2 =>
    exact absurd (hs ▸ List.mem_append_right l (List.mem_cons_self '\n' X)) hnl2
  | cons l2 X2 hnl2 hne2 hX2 =>
    obtain ⟨e1, e2⟩ := nl_decomp_unique hl hnl2 hs
    subst e1
    subst e2
    exact ⟨hne2, hX2⟩

/-- The blank-line scan produces a text without space-only lines. -/
theorem Inert4_blankLinesGo (fuel : Nat) :
    ∀ s : List Char, s.length ≤ fuel → Inert4 (blankLinesGo fuel s) := by
  induction fuel with
  | zero =>
    intro s h
    have hs : s = [] := List.eq_nil_of_length_eq_zero (by omega)
    subst hs
    exact Inert4.nil
  | succ fuel ih =>
    intro s hlen
    by_cases hemp : s = []
    · subst hemp; exact Inert4.nil
    · rw [blankLinesGo_cons_eq fuel s hemp]
      by_cases hblank : (s.dropWhile (fun c => c == ' ')).head? = some '\n'
      · rw [if_pos hblank]
        cases hdw : s.dropWhile (fun c => c == ' ') with
        | nil => rw [hdw] at hblank; exact absurd hblank (by simp)
        | cons x r =>
          have hx : x = '\n' := by rw [hdw] at hblank; simpa using hblank
          subst hx
          have hdec : s = s.takeWhile (fun c => c == ' ') ++ '\n' :: r := by
            conv_lhs => rw [← List.takeWhile_append_dropWhile
              (p := fun c => c == ' ') (l := s)]
            rw [hdw]
          show Inert4 (blankLinesGo fuel r)
          have hlenr : r.length ≤ fuel := by
            have : s.length =
                (s.takeWhile (fun c => c == ' ')).length + (r.length + 1) := by
              conv_lhs => rw [hdec]
              rw [List.length_append, List.length_cons]
            omega
          exact ih r hlenr
      · rw [if_neg hblank]
        cases hr : lineRest s with
        | nil =>
          have hnl : '\n' ∉ s := fun hmem => by
            have := List.dropWhile_eq_nil_iff.mp hr '\n' hmem
            simp at this
          rw [takeLine_no_nl hnl]
          show Inert4 (s ++ [])
          rw [List.append_nil]
          exact Inert4.last s hnl
        | cons x r =>
          have hx : x = '\n' := lineRest_head hr
          subst hx
          have hdec : s = takeLine s ++ '\n' :: r := takeLine_decomp hr
          have hnl := nl_not_mem_takeLine s
          have hne2 : (takeLine s).dropWhile (fun c => c == ' ') ≠ [] := by
            intro hnil
            apply hblank
            conv_lhs => rw [hdec]
            rw [List.dropWhile_append, if_pos (by rw [hnil]; rfl),
              List.dropWhile_cons]
            simp
          show Inert4 (takeLine s ++ '\n' :: blankLinesGo fuel r)
          have hlenr : r.length ≤ fuel := by
            have : s.length = (takeLine s).length + (r.length + 1) := by
              conv_lhs => rw [hdec]
              rw [List.length_append, List.length_cons]
            omega
          exact Inert4.cons _ _ hnl hne2 (ih r hlenr)

/-- The blank-line scan leaves a text without space-only lines unchanged. -/
theorem Inert4_id {s : List Char} (h : Inert4 s) :
    ∀ fuel, blankLinesGo fuel s = s := by
  induction h with
  | nil => intro fuel; cases fuel <;> rfl
  | last l hnl =>
    intro fuel
    cases fuel with
    | zero => rfl
    | succ fuel =>
      by_cases hemp : l = []
      · subst hemp; rfl
      · have hb : ¬(l.dropWhile (fun c => c == ' ')).head? = some '\n' := by
          intro hhead
          cases hdw : l.dropWhile (fun c => c == ' ') with
          | nil => rw [hdw] at hhead; simp at hhead
          | cons e r =>
            rw [hdw] at hhead
            simp at hhead
            refine hnl ((List.dropWhile_sublist (fun c => c == ' ')).subset ?_)
            rw [hdw]
            exact List.mem_cons.mpr (Or.inl hhead.symm)
        rw [blankLinesGo_cons_eq fuel l hemp, if_neg hb, takeLine_no_nl hnl,
          lineRest_no_nl hnl]
        exact List.append_nil l
  | cons l X hnl hne hX ih =>
    intro fuel
    cases fuel with
    | zero => rfl
    | succ fuel =>
      have hb : ¬((l ++ '\n' :: X).dropWhile (fun c => c == ' ')).head? =
          some '\n' := by
        intro hhead
        rw [List.dropWhile_append,
          if_neg (by simpa using hne)] at hhead
        cases hdw : l.dropWhile (fun c => c == ' ') with
        | nil => exact hne hdw
        | cons e r =>
          rw [hdw] at hhead
          simp at hhead
          refine hnl ((List.dropWhile_sublist (fun c => c == ' ')).subset ?_)
          rw [hdw]
          exact List.mem_cons.mpr (Or.inl hhead.symm)
      rw [blankLinesGo_cons_eq fuel _ (by simp), if_neg hb, takeLine_append,
        takeLine_no_nl hnl, lineRest_append_no_nl X hnl]
      show l ++ '\n' :: blankLinesGo fuel X = l ++ '\n' :: X
      rw [ih fuel]

/-! Character-level facts: the two collapse passes output no tabs and no
ideographic/no-break spaces, the two removal scans only delete characters,
and each pass is the identity on already-clean input. -/

theorem mem_collapseTabsGo {c : Char} {b : Bool} {s : List Char}
    (h : c ∈ collapseTabsGo b s) : c ∈ s ∨ c = ' ' := by
  induction s generalizing b with
  | nil => cases h
  | cons d cs ih =>
    rw [collapseTabsGo] at h
    by_cases hd : d = '\t'
    · rw [if_pos hd] at h
      rcases List.mem_append.mp h with h | h
      · cases b with
        | true => cases h
        | false =>
          rcases List.mem_cons.mp h with h | h
          · exact Or.inr h
          · cases h
      · rcases ih h with h | h
        · exact Or.inl (List.mem_cons_of_mem d h)
        · exact Or.inr h
    · rw [if_neg hd] at h
      rcases List.mem_cons.mp h with h | h
      · exact Or.inl (by rw [h]; exact List.mem_cons_self d cs)
      · rcases ih h with h2 | h2
        · exact Or.inl (List.mem_cons_of_mem d h2)
        · exact Or.inr h2

theorem collapseTabsGo_no_tab {b : Bool} {s : List Char} :
    '\t' ∉ collapseTabsGo b s := by
  induction s generalizing b with
  | nil => intro h; cases h
  | cons d cs ih =>
    intro h
    rw [collapseTabsGo] at h
    by_cases hd : d = '\t'
    · rw [if_pos hd] at h
      rcases List.mem_append.mp h with h | h
      · cases b with
        | true => cases h
        | false =>
          rcases List.mem_cons.mp h with h | h
          · exact absurd h (by decide)
          · cases h
      · exact ih h
    · rw [if_neg hd] at h
      rcases List.mem_cons.mp h with h | h
      · exact hd h.symm
      · exact ih h

theorem collapseTabs_id {s : List Char} (h : '\t' ∉ s) : collapseTabs s = s := by
  unfold collapseTabs
  induction s with
  | nil => rfl
  | cons d cs ih =>
    rw [collapseTabsGo,
      if_neg fun hd => h (by rw [← hd]; exact List.mem_cons_self d cs),
      ih fun hm => h (List.mem_cons_of_mem d hm)]

theorem mem_collapseZenGo {c : Char} {b : Bool} {s : List Char}
    (h : c ∈ collapseZenGo b s) : c ∈ s ∨ c = ' ' := by
  induction s generalizing b with
  | nil => cases h
  | cons d cs ih =>
    rw [collapseZenGo] at h
    by_cases hd : isZenSpace d = true
    · rw [if_pos hd] at h
      rcases List.mem_append.mp h with h | h
      · cases b with
        | true => cases h
        | false =>
          rcases List.mem_cons.mp h with h | h
          · exact Or.inr h
          · cases h
      · rcases ih h with h | h
        · exact Or.inl (List.mem_cons_of_mem d h)
        · exact Or.inr h
    · rw [if_neg hd] at h
      rcases List.mem_cons.mp h with h | h
      · exact Or.inl (by rw [h]; exact List.mem_cons_self d cs)
      · rcases ih h with h2 | h2
        · exact Or.inl (List.mem_cons_of_mem d h2)
        · exact Or.inr h2

theorem collapseZenGo_no_zen {c : Char} (hc : isZenSpace c = true)
    {b : Bool} {s : List Char} : c ∉ collapseZenGo b s := by
  induction s generalizing b with
  | nil => intro h; cases h
  | cons d cs ih =>
    intro h
    rw [collapseZenGo] at h
    by_cases hd : isZenSpace d = true
    · rw [if_pos hd] at h
      rcases List.mem_append.mp h with h | h
      · cases b with
        | true => cases h
        | false =>
          rcases List.mem_cons.mp h with h | h
          · rw [h] at hc
            exact absurd hc (by decide)
          · cases h
      · exact ih h
    · rw [if_neg hd] at h
      rcases List.mem_cons.mp h with h | h
      · rw [h] at hc
        exact hd hc
      · exact ih h

theorem collapseZen_id {s : List Char} (h : ∀ c ∈ s, isZenSpace c = false) :
    collapseZen s = s := by
  unfold collapseZen
  induction s with
  | nil => rfl
  | cons d cs ih =>
    rw [collapseZenGo,
      if_neg (by rw [h d (List.mem_cons_self d cs)]; simp),
      ih fun c hm => h c (List.mem_cons_of_mem d hm)]

theorem lineRest_sublist (s : List Char) : (lineRest s).Sublist s :=
  List.dropWhile_sublist _

theorem mem_lastNlSplit {ws r : List Char} (h : lastNlSplit ws = some r) :
    ∀ c ∈ r, c ∈ ws := by
  induction ws generalizing r with
  | nil => exact Option.noConfusion h
  | cons d cs ih =>
    rw [lastNlSplit] at h
    cases hc : lastNlSplit cs with
    | some r2 =>
      rw [hc] at h
      injection h with h2
      subst h2
      exact fun c hcm => List.mem_cons_of_mem d (ih hc c hcm)
    | none =>
      rw [hc] at h
      by_cases hd : d = '\n'
      · rw [if_pos hd] at h
        injection h with h2
        subst h2
        exact fun c hcm => List.mem_cons_of_mem d hcm
      · rw [if_neg hd] at h
        exact Option.noConfusion h

theorem mem_tryMatch3 {s rest : List Char} (h : tryMatch3 s = some rest) :
    ∀ c ∈ rest, c ∈ s := by
  rw [tryMatch3_eq] at h
  by_cases hW : ((s.dropWhile isWs).takeWhile isW).isEmpty = true
  · rw [if_pos hW] at h
    exact Option.noConfusion h
  · rw [if_neg hW] at h
    by_cases hT : (((s.dropWhile isWs).dropWhile isW).dropWhile isWs).isEmpty = true
    · rw [if_pos hT] at h
      injection h with h2
      intro c hc
      rw [← h2] at hc
      cases hc
    · rw [if_neg hT] at h
      cases hsp : lastNlSplit (((s.dropWhile isWs).dropWhile isW).takeWhile isWs) with
      | none =>
        rw [hsp] at h
        exact Option.noConfusion h
      | some r =>
        rw [hsp] at h
        injection h with h2
        intro c hc
        rw [← h2] at hc
        rcases List.mem_append.mp hc with hc | hc
        · exact (List.dropWhile_sublist isWs).subset
            ((List.dropWhile_sublist isW).subset
              ((List.takeWhile_sublist isWs).subset (mem_lastNlSplit hsp c hc)))
        · exact (List.dropWhile_sublist isWs).subset
            ((List.dropWhile_sublist isW).subset
              ((List.dropWhile_sublist isWs).subset hc))

theorem mem_wordLinesGo {fuel : Nat} :
    ∀ {s : List Char} {c : Char}, c ∈ wordLinesGo fuel s → c ∈ s := by
  induction fuel with
  | zero => intro s c h; exact h
  | succ fuel ih =>
    intro s c h
    by_cases hemp : s = []
    · subst hemp
      rw [show wordLinesGo (fuel + 1) [] = [] from rfl] at h
      cases h
    · rw [wordLinesGo_cons_eq fuel s hemp] at h
      cases hm : tryMatch3 s with
      | some rest =>
        rw [hm] at h
        exact mem_tryMatch3 hm c (ih h)
      | none =>
        rw [hm] at h
        rcases List.mem_append.mp h with h | h
        · exact (List.takeWhile_sublist _).subset h
        · cases hr : lineRest s with
          | nil => rw [hr] at h; cases h
          | cons x r =>
            rw [hr] at h
            have hx : x = '\n' := lineRest_head hr
            rcases List.mem_cons.mp h with h | h
            · rw [h, ← hx]
              exact (lineRest_sublist s).subset
                (by rw [hr]; exact List.mem_cons_self x r)
            · have hcr : c ∈ lineRest s := by
                rw [hr]
                exact List.mem_cons_of_mem x (ih h)
              exact (lineRest_sublist s).subset hcr

theorem mem_blankLinesGo {fuel : Nat} :
    ∀ {s : List Char} {c : Char}, c ∈ blankLinesGo fuel s → c ∈ s := by
  induction fuel with
  | zero => intro s c h; exact h
  | succ fuel ih =>
    intro s c h
    by_cases hemp : s = []
    · subst hemp
      rw [show blankLinesGo (fuel + 1) [] = [] from rfl] at h
      cases h
    · rw [blankLinesGo_cons_eq fuel s hemp] at h
      by_cases hblank : (s.dropWhile (fun c => c == ' ')).head? = some '\n'
      · rw [if_pos hblank] at h
        exact (List.dropWhile_sublist _).subset
          ((List.tail_sublist _).subset (ih h))
      · rw [if_neg hblank] at h
        rcases List.mem_append.mp h with h | h
        · exact (List.takeWhile_sublist _).subset h
        · cases hr : lineRest s with
          | nil => rw [hr] at h; cases h
          | cons x r =>
            rw [hr] at h
            have hx : x = '\n' := lineRest_head hr
            rcases List.mem_cons.mp h with h | h
            · rw [h, ← hx]
              exact (lineRest_sublist s).subset
                (by rw [hr]; exact List.mem_cons_self x r)
            · have hcr : c ∈ lineRest s := by
                rw [hr]
                exact List.mem_cons_of_mem x (ih h)
              exact (lineRest_sublist s).subset hcr

theorem strip_noise_no_tab {s : List Char} :
    '\t' ∉ remove_parentheses_and_special_chars s := by
  unfold remove_parentheses_and_special_chars removeBlankLines removeWordLines
    collapseZen collapseTabs
  intro h
  rcases mem_collapseZenGo (mem_wordLinesGo (mem_blankLinesGo h)) with h3 | h3
  · exact collapseTabsGo_no_tab h3
  · exact absurd h3 (by decide)

theorem strip_noise_no_zen {s : List Char} {c : Char}
    (hc : isZenSpace c = true) :
    c ∉ remove_parentheses_and_special_chars s := by
  unfold remove_parentheses_and_special_chars removeBlankLines removeWordLines
    collapseZen
  intro h
  exact collapseZenGo_no_zen hc (mem_wordLinesGo (mem_blankLinesGo h))

/-- C9: the noise stripper is idempotent — applying
`remove_parentheses_and_special_chars` a second time changes nothing. -/
theorem strip_noise_idem (s : List Char) :
    remove_parentheses_and_special_chars (remove_parentheses_and_special_chars s)
      = remove_parentheses_and_special_chars s := by
  have hin3 : Inert3 (remove_parentheses_and_special_chars s) := by
    unfold remove_parentheses_and_special_chars removeBlankLines removeWordLines
    exact Inert3_blankLinesGo _ _
      (Inert3_wordLinesGo _ _ (le_refl _)) (le_refl _)
  have hin4 : Inert4 (remove_parentheses_and_special_chars s) := by
    unfold remove_parentheses_and_special_chars removeBlankLines
    exact Inert4_blankLinesGo _ _ (le_refl _)
  have h1 : collapseTabs (remove_parentheses_and_special_chars s) =
      remove_parentheses_and_special_chars s :=
    collapseTabs_id strip_noise_no_tab
  have h2 : collapseZen (remove_parentheses_and_special_chars s) =
      remove_parentheses_and_special_chars s :=
    collapseZen_id fun c hc => by
      cases hzs : isZenSpace c with
      | false => rfl
      | true => exact absurd hc (strip_noise_no_zen hzs)
  have h3 : removeWordLines (remove_parentheses_and_special_chars s) =
      remove_parentheses_and_special_chars s := by
    unfold removeWordLines
    exact wordLinesGo_id hin3 _
  have h4 : removeBlankLines (remove_parentheses_and_special_chars s) =
      remove_parentheses_and_special_chars s := by
    unfold removeBlankLines
    exact Inert4_id hin4 _
  show removeBlankLines (removeWordLines (collapseZen (collapseTabs
    (remove_parentheses_and_special_chars s)))) =
    remove_parentheses_and_special_chars s
  rw [h1, h2, h3, h4]

end Aozora
